import Mathlib

/-!
Shallow embedding of the order-book matching engine of `orderbook/orderbook.go`
and of the market-maker loop of `mm/maker.go` from the `crypto-exchange`
repository, together with proofs about the spec's claims.

Modelling conventions:

* Go `float64` prices and sizes are modelled as exact rationals (`ℚ`); the
  spec describes them as real-valued quantities.
* Go pointers (`*Order`) are modelled as addresses (`Addr := Nat`) into an
  explicit heap (`List Order`); mutation of an order becomes `List.set` on the
  heap, so aliasing between the order index, the price levels and the returned
  matches behaves exactly as in Go.
* The Go field `Order.Limit : *Limit` becomes `limitRef : Option ℚ`, holding
  the price of the level currently containing the order (`none` for Go `nil`);
  the side of that level always equals the side of the order, as in the source.
* The Go maps `AskLimits`/`BidLimits` mirror the `asks`/`bids` slices at all
  times (both are updated in lock step in `PlaceLimitOrder` and `clearLimit`),
  so the embedding keeps a single list per side and derives map lookups from it.
* Go panics (`PlaceMarketOrder`'s liquidity panic, `CancelOrder`'s nil-pointer
  dereference, the out-of-range `Trades[len(Trades)-1]` read in the final log
  line of `PlaceMarketOrder`) are modelled as `OBErr` values; a panic aborts
  the call and leaves the state exactly as mutated up to that point.
* `sort.Sort` (an unstable comparison sort in Go) is modelled by
  `List.insertionSort`; the two agree whenever the compared keys are pairwise
  distinct, which holds for level prices on one side and is assumed where the
  order of equal keys matters.
* `PlaceMarketOrder` ranges over the sorted side while `clearLimit`
  swap-removes emptied levels from the same underlying array; the range still
  delivers exactly the initially sorted levels, in order, each once (the swap
  only ever rewrites positions the range has already passed), so the embedding
  folds over the sorted list and drops the emptied levels.
* Wall-clock reads (`time.Now()`) and random ids are nondeterministic in Go and
  become explicit parameters.
-/

namespace Exch

/-- `Order` from `orderbook.go`: id, user id, remaining size, side
(`bid = true` for a buy), back-reference to the holding level, timestamp. -/
structure Order where
  id : Int
  userId : Int
  size : ℚ
  bid : Bool
  limitRef : Option ℚ
  timestamp : Int
deriving DecidableEq

/-- Heap addresses standing for Go `*Order` pointers. -/
abbrev Addr := Nat

/-- The order heap: `Addr`-indexed storage for all `Order` objects. -/
abbrev Heap := List Order

/-- Zero `Order`, used only as the out-of-range default of heap reads. -/
def defaultOrder : Order := ⟨0, 0, 0, false, none, 0⟩

/-- Heap read (dereference of an order pointer). -/
def hget (h : Heap) (a : Addr) : Order := h.getD a defaultOrder

/-- Heap write (mutation of the pointed-to order). -/
def hset (h : Heap) (a : Addr) (o : Order) : Heap := h.set a o

/-- `Match` from `orderbook.go`: the two matched orders (as addresses), the
quantity exchanged, and the price of the level where the match happened. -/
structure Match where
  ask : Addr
  bid : Addr
  sizeFilled : ℚ
  price : ℚ
deriving DecidableEq

/-- `Trade` from `orderbook.go`. -/
structure Trade where
  price : ℚ
  size : ℚ
  bid : Bool
  timestamp : Int
deriving DecidableEq

/-- `Limit` from `orderbook.go`: one price level holding resting orders. -/
structure Limit where
  price : ℚ
  orders : List Addr
  totalVolume : ℚ
deriving DecidableEq

/-- `NewLimit` from `orderbook.go` (the zero value of `TotalVolume` is 0). -/
def NewLimit (price : ℚ) : Limit := ⟨price, [], 0⟩

/-- `Limit.AddOrder`: set the back-reference, append the order to the tail,
add its size to the level volume. -/
def Limit.addOrder (l : Limit) (h : Heap) (a : Addr) : Limit × Heap :=
  let h' := hset h a { hget h a with limitRef := some l.price }
  (⟨l.price, l.orders ++ [a], l.totalVolume + (hget h' a).size⟩, h')

/-- The removal loop of `Limit.DeleteOrder`: scan from index `i`; on a hit,
overwrite the position with the current last element and truncate by one,
continuing the scan with the next index (the Go loop does `i++` regardless). -/
def deleteScan (xs : List Addr) (o : Addr) (i : Nat) : List Addr :=
  if h : i < xs.length then
    if xs.get ⟨i, h⟩ = o then
      deleteScan ((xs.set i (xs.getLastD 0)).dropLast) o (i + 1)
    else
      deleteScan xs o (i + 1)
  else
    xs
termination_by xs.length - i
decreasing_by
  · have : ((xs.set i (xs.getLastD 0)).dropLast).length = xs.length - 1 := by
      simp [List.length_dropLast, List.length_set]
    omega
  · omega

/-- Timestamp order on order addresses, used by the sort in `DeleteOrder`
(`Orders.Less` compares timestamps). -/
def tsLe (h : Heap) (x y : Addr) : Prop :=
  (hget h x).timestamp ≤ (hget h y).timestamp

instance (h : Heap) : DecidableRel (tsLe h) := fun x y =>
  inferInstanceAs (Decidable ((hget h x).timestamp ≤ (hget h y).timestamp))

instance (h : Heap) : IsTotal Addr (tsLe h) := ⟨fun x y => le_total _ _⟩

instance (h : Heap) : IsTrans Addr (tsLe h) := ⟨fun _ _ _ => le_trans⟩

/-- `Limit.DeleteOrder`: swap-remove the order, clear its back-reference,
subtract its (current) size from the level volume, then restore FIFO order by
sorting on timestamps (`sort.Sort(l.Orders)`). -/
def Limit.deleteOrder (l : Limit) (h : Heap) (a : Addr) : Limit × Heap :=
  let os := deleteScan l.orders a 0
  let h' := hset h a { hget h a with limitRef := none }
  (⟨l.price, List.insertionSort (tsLe h') os, l.totalVolume - (hget h' a).size⟩, h')

/-- The size movement of `Limit.fillOrder` (`a.Size >= b.Size` branch and its
converse): returns the filled quantity and the mutated heap.  The reads and
writes happen in exactly the source order (sizes are re-read from the heap
between mutations, as Go reads the mutated objects). -/
def fillSizes (h : Heap) (a b : Addr) : ℚ × Heap :=
  if (hget h b).size ≤ (hget h a).size then
    let h1 := hset h a { hget h a with size := (hget h a).size - (hget h b).size }
    let sf := (hget h1 b).size
    (sf, hset h1 b { hget h1 b with size := 0 })
  else
    let h1 := hset h b { hget h b with size := (hget h b).size - (hget h a).size }
    let sf := (hget h1 a).size
    (sf, hset h1 a { hget h1 a with size := 0 })

/-- `Limit.fillOrder`: `a` is the resting order, `b` the incoming one.  The
bid/ask roles are assigned by the resting order's side (read before any
mutation, as in the source). -/
def fillOrder (price : ℚ) (h : Heap) (a b : Addr) : Match × Heap :=
  let askBid : Addr × Addr := if (hget h a).bid then (b, a) else (a, b)
  let r := fillSizes h a b
  (⟨askBid.1, askBid.2, r.1, price⟩, r.2)

/-- The matching loop of `Limit.Fill`: walk the level's orders; stop when the
incoming order `o` is filled; otherwise match against the next resting order,
record the match, and mark the resting order for deletion when it ended the
step with size 0.  Returns (heap, matches, orders to delete). -/
def fillPass (price : ℚ) (os : List Addr) (o : Addr) (h : Heap) :
    Heap × List Match × List Addr :=
  match os with
  | [] => (h, [], [])
  | a :: rest =>
    if (hget h o).size = 0 then (h, [], [])
    else
      let mh := fillOrder price h a o
      let del : List Addr := if (hget mh.2 a).size = 0 then [a] else []
      let r := fillPass price rest o mh.2
      (r.1, mh.1 :: r.2.1, del ++ r.2.2)

/-- `Limit.Fill`: run the matching loop, subtract the filled quantity from the
level volume (the source subtracts `match.SizeFilled` once per iteration, which
totals the same sum), then delete the fully consumed resting orders. -/
def Limit.fill (l : Limit) (h : Heap) (o : Addr) : Limit × Heap × List Match :=
  let r := fillPass l.price l.orders o h
  let l1 : Limit := ⟨l.price, l.orders, l.totalVolume - (r.2.1.map Match.sizeFilled).sum⟩
  let dl := r.2.2.foldl (fun p a => Limit.deleteOrder p.1 p.2 a) (l1, r.1)
  (dl.1, dl.2, r.2.1)

/-- Ask priority: ascending price (`ByBestAsk`). -/
def askLe (x y : Limit) : Prop := x.price ≤ y.price

/-- Bid priority: descending price (`ByBestBid`). -/
def bidGe (x y : Limit) : Prop := y.price ≤ x.price

instance : DecidableRel askLe := fun x y =>
  inferInstanceAs (Decidable (x.price ≤ y.price))

instance : DecidableRel bidGe := fun x y =>
  inferInstanceAs (Decidable (y.price ≤ x.price))

instance : IsTotal Limit askLe := ⟨fun x y => le_total x.price y.price⟩

instance : IsTrans Limit askLe := ⟨fun _ _ _ => le_trans⟩

instance : IsTotal Limit bidGe := ⟨fun x y => le_total y.price x.price⟩

instance : IsTrans Limit bidGe := ⟨fun _ _ _ h h' => le_trans h' h⟩

/-- `Orderbook` from `orderbook.go`.  `ordersById` is the `Orders` map (an
association list with overwrite-on-insert semantics); the `AskLimits` and
`BidLimits` maps are derived from `asks`/`bids` (see the header comment). -/
structure Orderbook where
  heap : Heap
  asks : List Limit
  bids : List Limit
  trades : List Trade
  ordersById : List (Int × Addr)
deriving DecidableEq

/-- `NewOrderbook`. -/
def NewOrderbook : Orderbook := ⟨[], [], [], [], []⟩

/-- `Orderbook.AskTotalVolume`. -/
def askTotalVolume (ob : Orderbook) : ℚ := (ob.asks.map Limit.totalVolume).sum

/-- `Orderbook.BidTotalVolume`. -/
def bidTotalVolume (ob : Orderbook) : ℚ := (ob.bids.map Limit.totalVolume).sum

/-- `Orderbook.Asks`: the ask levels sorted by ascending price. -/
def sortedAsks (ob : Orderbook) : List Limit := List.insertionSort askLe ob.asks

/-- `Orderbook.Bids`: the bid levels sorted by descending price. -/
def sortedBids (ob : Orderbook) : List Limit := List.insertionSort bidGe ob.bids

/-- Go map insert: `m[k] = a` (overwrites any previous binding of `k`). -/
def mapInsert (k : Int) (a : Addr) (m : List (Int × Addr)) : List (Int × Addr) :=
  (k, a) :: m.filter (fun p => !(p.1 == k))

/-- Go map delete. -/
def mapDelete (k : Int) (m : List (Int × Addr)) : List (Int × Addr) :=
  m.filter (fun p => !(p.1 == k))

/-- Go map lookup. -/
def mapLookup (k : Int) (m : List (Int × Addr)) : Option Addr :=
  (m.find? (fun p => p.1 == k)).map Prod.snd

/-- The ways a call into the book can abort (Go panics, see header). -/
inductive OBErr where
  /-- The liquidity pre-check panic of `PlaceMarketOrder`. -/
  | insufficientLiquidity
  /-- The nil-pointer dereference in `CancelOrder` when `o.Limit == nil`. -/
  | unknownOrder
  /-- The out-of-range `Trades[len(Trades)-1]` read in `PlaceMarketOrder`. -/
  | emptyTrades
deriving DecidableEq

/-- The level loop of `PlaceMarketOrder`: fill against the levels in priority
order; a level left with no orders is evicted (`clearLimit`).  Returns
(heap, surviving levels in priority order, matches). -/
def marketPass (o : Addr) (h : Heap) (ls : List Limit) :
    Heap × List Limit × List Match :=
  match ls with
  | [] => (h, [], [])
  | l :: rest =>
    let fr := l.fill h o
    let mr := marketPass o fr.2.1 rest
    (mr.1, if fr.1.orders.isEmpty then mr.2.1 else fr.1 :: mr.2.1,
     fr.2.2 ++ mr.2.2)

/-- `Orderbook.PlaceMarketOrder`.  `now` is the `time.Now()` read used for the
appended trades.  The incoming order object is allocated at address
`ob.heap.length`.  After appending the trades, the source unconditionally
reads `Trades[len(Trades)-1]` for a log line; on an empty trade log this
aborts (`OBErr.emptyTrades`) with the mutations already applied. -/
def placeMarketOrder (o : Order) (now : Int) (ob : Orderbook) :
    Except OBErr (List Match) × Orderbook :=
  if o.bid then
    if o.size > askTotalVolume ob then (.error .insufficientLiquidity, ob)
    else
      let a := ob.heap.length
      let r := marketPass a (ob.heap ++ [o]) (sortedAsks ob)
      let ts := r.2.2.map (fun m => Trade.mk m.price m.sizeFilled o.bid now)
      let ob' : Orderbook :=
        { ob with heap := r.1, asks := r.2.1, trades := ob.trades ++ ts }
      if ob'.trades.isEmpty then (.error .emptyTrades, ob') else (.ok r.2.2, ob')
  else
    if o.size > bidTotalVolume ob then (.error .insufficientLiquidity, ob)
    else
      let a := ob.heap.length
      let r := marketPass a (ob.heap ++ [o]) (sortedBids ob)
      let ts := r.2.2.map (fun m => Trade.mk m.price m.sizeFilled o.bid now)
      let ob' : Orderbook :=
        { ob with heap := r.1, bids := r.2.1, trades := ob.trades ++ ts }
      if ob'.trades.isEmpty then (.error .emptyTrades, ob') else (.ok r.2.2, ob')

/-- The side update of `PlaceLimitOrder`: add to the level at `price` if one
exists (the `BidLimits`/`AskLimits` lookup), otherwise create it and append it
to the side. -/
def addToSide (ls : List Limit) (h : Heap) (a : Addr) (price : ℚ) :
    List Limit × Heap :=
  match ls with
  | [] =>
    let r := (NewLimit price).addOrder h a
    ([r.1], r.2)
  | l :: rest =>
    if l.price = price then
      let r := l.addOrder h a
      (r.1 :: rest, r.2)
    else
      let r := addToSide rest h a price
      (l :: r.1, r.2)

/-- `Orderbook.PlaceLimitOrder`: allocate the order, record it in the order
index, and add it to the level at `price` on its side.  The source performs no
validation and cannot fail.  Returns the new state and the order's address. -/
def placeLimitOrder (price : ℚ) (o : Order) (ob : Orderbook) :
    Orderbook × Addr :=
  let a := ob.heap.length
  let h0 := ob.heap ++ [o]
  let m' := mapInsert o.id a ob.ordersById
  if o.bid then
    let r := addToSide ob.bids h0 a price
    ({ ob with heap := r.2, bids := r.1, ordersById := m' }, a)
  else
    let r := addToSide ob.asks h0 a price
    ({ ob with heap := r.2, asks := r.1, ordersById := m' }, a)

/-- The level part of `CancelOrder`: delete the order from the (first) level
with the given price; if the level empties, evict it (`clearLimit`). -/
def cancelInSide (ls : List Limit) (h : Heap) (a : Addr) (price : ℚ) :
    Option (List Limit × Heap) :=
  match ls with
  | [] => none
  | l :: rest =>
    if l.price = price then
      let r := l.deleteOrder h a
      some ((if r.1.orders.isEmpty then rest else r.1 :: rest), r.2)
    else
      match cancelInSide rest h a price with
      | none => none
      | some p => some (l :: p.1, p.2)

/-- `Orderbook.CancelOrder`.  When the order's level reference is `nil` the
source dereferences a nil `*Limit` and panics before any mutation; this is the
`unknownOrder` outcome.  Otherwise the order is deleted from its level, the
level is evicted if it emptied, and the id is removed from the order index. -/
def cancelOrder (a : Addr) (ob : Orderbook) : Except OBErr Unit × Orderbook :=
  let o := hget ob.heap a
  match o.limitRef with
  | none => (.error .unknownOrder, ob)
  | some price =>
    if o.bid then
      match cancelInSide ob.bids ob.heap a price with
      | none => (.error .unknownOrder, ob)
      | some p =>
        (.ok (), { ob with heap := p.2, bids := p.1,
                           ordersById := mapDelete o.id ob.ordersById })
    else
      match cancelInSide ob.asks ob.heap a price with
      | none => (.error .unknownOrder, ob)
      | some p =>
        (.ok (), { ob with heap := p.2, asks := p.1,
                           ordersById := mapDelete o.id ob.ordersById })

/-- Modelled from the spec: the market maker reads best-of prices through the
HTTP `client`/`server` packages, which are not under `src/`; per the spec,
`best_bid()` reports the best level's price "or a sentinel with price 0 if
empty". -/
def bestBidPrice (ob : Orderbook) : ℚ :=
  match sortedBids ob with
  | [] => 0
  | l :: _ => l.price

/-- Modelled from the spec: `best_ask()`, price-0 sentinel when empty. -/
def bestAskPrice (ob : Orderbook) : ℚ :=
  match sortedAsks ob with
  | [] => 0
  | l :: _ => l.price

/-- The `mm.Config`/`MarketMaker` fields used by one tick of the loop. -/
structure MMConfig where
  userId : Int
  orderSize : ℚ
  minSpread : ℚ
  seedOffset : ℚ
  priceOffset : ℚ
deriving DecidableEq

/-- `simulateFetchCurrentETHPrice` from `mm/maker.go` (the 80 ms sleep has no
observable effect on the result). -/
def simulateFetchCurrentETHPrice : ℚ := 1000

/-- `NewOrder` with the random id and clock read made explicit parameters. -/
def mkOrder (bid : Bool) (size : ℚ) (userId oid ts : Int) : Order :=
  ⟨oid, userId, size, bid, none, ts⟩

/-- `MarketMaker.seedMarket`.  Modelled from the spec where it crosses the
missing transport: `placeOrder` goes through the HTTP client, which per the
spec is a thin translation layer into `place_limit`; it is modelled as a
direct `placeLimitOrder` call with a fresh order of the configured size and
user id (ids and timestamps are parameters). -/
def seedMarket (cfg : MMConfig) (ob : Orderbook) (id1 ts1 id2 ts2 : Int) :
    Orderbook :=
  let p := simulateFetchCurrentETHPrice
  let ob1 :=
    (placeLimitOrder (p - cfg.seedOffset)
      (mkOrder true cfg.orderSize cfg.userId id1 ts1) ob).1
  (placeLimitOrder (p + cfg.seedOffset)
    (mkOrder false cfg.orderSize cfg.userId id2 ts2) ob1).1

/-- One iteration of `MarketMaker.makerLoop` (the body between ticker waits),
with the transport modelled from the spec as in `seedMarket`. -/
def makerTick (cfg : MMConfig) (ob : Orderbook) (id1 ts1 id2 ts2 : Int) :
    Orderbook :=
  let bb := bestBidPrice ob
  let ba := bestAskPrice ob
  if ba = 0 ∧ bb = 0 then
    seedMarket cfg ob id1 ts1 id2 ts2
  else
    let bb' := if bb = 0 then ba - cfg.priceOffset * 2 else bb
    let ba' := if ba = 0 then bb' + cfg.priceOffset * 2 else ba
    if ba' - bb' ≤ cfg.minSpread then ob
    else
      let ob1 :=
        (placeLimitOrder (bb' + cfg.priceOffset)
          (mkOrder true cfg.orderSize cfg.userId id1 ts1) ob).1
      (placeLimitOrder (ba' - cfg.priceOffset)
        (mkOrder false cfg.orderSize cfg.userId id2 ts2) ob1).1

/-! ### Invariant predicates (the spec's testable properties, over the model) -/

/-- All order addresses resting on one side. -/
def addrsOfSide (ls : List Limit) : List Addr := ls.flatMap Limit.orders

/-- All order addresses resting anywhere in the book. -/
def allAddrs (ob : Orderbook) : List Addr :=
  addrsOfSide ob.asks ++ addrsOfSide ob.bids

/-- Per-level volume consistency: `total_volume = Σ order.size`. -/
def Limit.volOK (h : Heap) (l : Limit) : Prop :=
  l.totalVolume = (l.orders.map (fun a => (hget h a).size)).sum

/-- Volume consistency on both sides. -/
def volumeOK (ob : Orderbook) : Prop :=
  (∀ l ∈ ob.asks, l.volOK ob.heap) ∧ (∀ l ∈ ob.bids, l.volOK ob.heap)

/-- Resting orders are distinct objects and live inside the heap. -/
def addrsWF (ob : Orderbook) : Prop :=
  (allAddrs ob).Nodup ∧ ∀ a ∈ allAddrs ob, a < ob.heap.length

/-- All resting sizes are non-negative (spec: `size ≥ 0`). -/
def sizesNonneg (ob : Orderbook) : Prop :=
  ∀ a ∈ allAddrs ob, 0 ≤ (hget ob.heap a).size

/-- Orders rest on the side matching their own `bid` flag. -/
def sidesOK (ob : Orderbook) : Prop :=
  (∀ a ∈ addrsOfSide ob.asks, (hget ob.heap a).bid = false) ∧
  (∀ a ∈ addrsOfSide ob.bids, (hget ob.heap a).bid = true)

/-- Each side has at most one level per price. -/
def pricesNodup (ob : Orderbook) : Prop :=
  (ob.asks.map Limit.price).Nodup ∧ (ob.bids.map Limit.price).Nodup

/-- Every level's order list is in FIFO (non-decreasing timestamp) order. -/
def timeSorted (ob : Orderbook) : Prop :=
  (∀ l ∈ ob.asks, l.orders.Sorted (tsLe ob.heap)) ∧
  (∀ l ∈ ob.bids, l.orders.Sorted (tsLe ob.heap))

/-- A non-`nil` level reference points at an existing level of the order's
side that indeed contains the order. -/
def refsOK (ob : Orderbook) : Prop :=
  ∀ a, a < ob.heap.length →
    ∀ p ∈ (hget ob.heap a).limitRef,
      ∃ l ∈ (if (hget ob.heap a).bid then ob.bids else ob.asks),
        l.price = p ∧ a ∈ l.orders

instance (P : ℚ → Prop) [DecidablePred P] (o : Option ℚ) :
    Decidable (∀ p ∈ o, P p) := by
  cases o with
  | none => exact isTrue (by simp)
  | some v => exact decidable_of_iff (P v) (by simp)

/-- The identity-carrying fields of an order (everything except the mutable
`size` and `limitRef`): id, user id, side, timestamp. -/
def sameCore (x y : Order) : Prop :=
  x.id = y.id ∧ x.userId = y.userId ∧ x.bid = y.bid ∧ x.timestamp = y.timestamp

/-- The opposite side's total volume consumed by a market order. -/
def oppVolume (o : Order) (ob : Orderbook) : ℚ :=
  if o.bid then askTotalVolume ob else bidTotalVolume ob

/-- The resting (maker) party of a match produced by a market order whose
side is `isBid`: a market bid consumes asks and vice versa. -/
def restingOf (isBid : Bool) (m : Match) : Addr :=
  if isBid then m.ask else m.bid

/-- Price-time priority order on matches of one `PlaceMarketOrder` call with
taker side `isBid`: prices non-decreasing for a market bid (non-increasing for
a market ask), and timestamps of the consumed resting orders non-decreasing
within one price. -/
def priceTimeLe (isBid : Bool) (h : Heap) (m1 m2 : Match) : Prop :=
  (cond isBid (m1.price ≤ m2.price) (m2.price ≤ m1.price)) ∧
  (m1.price = m2.price →
    (hget h (restingOf isBid m1)).timestamp ≤
      (hget h (restingOf isBid m2)).timestamp)

/-! ### Concrete instances used by witnesses and counterexamples -/

/-- A resting ask: id 1, size 20, at price 10000 (scenario S1). -/
def wAsk : Order := ⟨1, 0, 20, false, none, 1⟩

/-- A book holding only `wAsk` at price 10000. -/
def wBook : Orderbook := (placeLimitOrder 10000 wAsk NewOrderbook).1

/-- A market bid of size 10. -/
def wTaker : Order := ⟨2, 7, 10, true, none, 2⟩

/-- A resting ask of size 5 at 10000 (scenario S5). -/
def wAsk5 : Order := ⟨3, 0, 5, false, none, 1⟩

/-- A book holding only `wAsk5`. -/
def wBook5 : Orderbook := (placeLimitOrder 10000 wAsk5 NewOrderbook).1

/-- An ask of size 10 at 10000 that a size-10 market bid consumes fully. -/
def wAsk10 : Order := ⟨6, 0, 10, false, none, 1⟩

/-- A book holding only `wAsk10`. -/
def wBook10 : Orderbook := (placeLimitOrder 10000 wAsk10 NewOrderbook).1

/-- The S2 book: bids C(1)@5000, D(1)@5000, B(8)@9000, A(5)@10000, placed in
that order. -/
def s2Book : Orderbook :=
  (placeLimitOrder 10000 ⟨1, 0, 5, true, none, 4⟩
    ((placeLimitOrder 9000 ⟨2, 0, 8, true, none, 3⟩
      ((placeLimitOrder 5000 ⟨4, 0, 1, true, none, 2⟩
        ((placeLimitOrder 5000 ⟨3, 0, 1, true, none, 1⟩ NewOrderbook).1)).1)).1)).1

/-- The S2 taker: a market ask of size 10. -/
def s2Taker : Order := ⟨9, 7, 10, false, none, 5⟩

/-- A resting bid of size 4 at 10000 (cancel scenario). -/
def wBid4 : Order := ⟨5, 0, 4, true, none, 1⟩

/-- A book holding only `wBid4`. -/
def wBookC : Orderbook := (placeLimitOrder 10000 wBid4 NewOrderbook).1

/-- The matches returned by a size-10 market bid against `wBook`. -/
def wMs : List Match :=
  ((placeMarketOrder wTaker 2 wBook).1).toOption.getD []

/-- The book state after that market call. -/
def wOb : Orderbook := (placeMarketOrder wTaker 2 wBook).2

/-- The matches returned by the S2 market ask of size 10. -/
def s2Ms : List Match :=
  ((placeMarketOrder s2Taker 9 s2Book).1).toOption.getD []

/-- The book state after the S2 market call. -/
def s2Ob : Orderbook := (placeMarketOrder s2Taker 9 s2Book).2

/-! ### Basic heap lemmas -/




theorem length_hset (h : Heap) (a : Addr) (o : Order) :
    (hset h a o).length = h.length :=
  List.length_set h a o

theorem hget_hset_self {h : Heap} {a : Addr} (ha : a < h.length) (o : Order) :
    hget (hset h a o) a = o := by
  simp [hget, hset, List.getD_eq_getElem?_getD, List.getElem?_set_self ha]

theorem hget_hset_ne (h : Heap) {a x : Addr} (hax : a ≠ x) (o : Order) :
    hget (hset h a o) x = hget h x := by
  simp [hget, hset, List.getD_eq_getElem?_getD, List.getElem?_set_ne hax]

theorem hget_append_lt {h : Heap} {a : Addr} (ha : a < h.length)
    (tl : List Order) : hget (h ++ tl) a = hget h a := by
  simp [hget, List.getD_eq_getElem?_getD, List.getElem?_append, ha]

theorem hget_append_self (h : Heap) (o : Order) :
    hget (h ++ [o]) h.length = o := by
  simp [hget, List.getD_eq_getElem?_getD]

theorem hget_default {h : Heap} {a : Addr} (ha : h.length ≤ a) :
    hget h a = defaultOrder := by
  simp [hget, List.getD_eq_getElem?_getD, List.getElem?_eq_none ha]

theorem hset_of_le {h : Heap} {a : Addr} (ha : h.length ≤ a) (o : Order) :
    hset h a o = h := by
  simp [hset, List.set_eq_of_length_le ha]

theorem sameCore_refl (x : Order) : sameCore x x := ⟨rfl, rfl, rfl, rfl⟩

theorem sameCore_trans {x y z : Order} (h1 : sameCore x y) (h2 : sameCore y z) :
    sameCore x z := by
  obtain ⟨a1, b1, c1, d1⟩ := h1
  obtain ⟨a2, b2, c2, d2⟩ := h2
  exact ⟨a1.trans a2, b1.trans b2, c1.trans c2, d1.trans d2⟩

/-- Writing an order that shares its core with the overwritten one preserves
every core field of every heap cell. -/
theorem hget_hset_core {h : Heap} {a : Addr} {o : Order}
    (ho : sameCore o (hget h a)) (x : Addr) :
    sameCore (hget (hset h a o) x) (hget h x) := by
  rcases eq_or_ne a x with rfl | hax
  · rcases Nat.lt_or_ge a h.length with ha | ha
    · rw [hget_hset_self ha]; exact ho
    · rw [hset_of_le ha]; exact sameCore_refl _
  · rw [hget_hset_ne h hax]; exact sameCore_refl _

/-! ### `fillOrder` lemmas (`a` resting, `b` incoming, distinct objects) -/

theorem fillSizes_length (h : Heap) (a b : Addr) :
    (fillSizes h a b).2.length = h.length := by
  unfold fillSizes
  split <;> simp [length_hset]

theorem fillOrder_length (p : ℚ) (h : Heap) (a b : Addr) :
    (fillOrder p h a b).2.length = h.length :=
  fillSizes_length h a b

theorem fillOrder_price (p : ℚ) (h : Heap) (a b : Addr) :
    (fillOrder p h a b).1.price = p := rfl

theorem fillOrder_sizeFilled_def (p : ℚ) (h : Heap) (a b : Addr) :
    (fillOrder p h a b).1.sizeFilled = (fillSizes h a b).1 := rfl

theorem fillOrder_heap_def (p : ℚ) (h : Heap) (a b : Addr) :
    (fillOrder p h a b).2 = (fillSizes h a b).2 := rfl

theorem fillOrder_ask_of_bid {h : Heap} {a : Addr} (p : ℚ) (b : Addr)
    (hb : (hget h a).bid = true) :
    (fillOrder p h a b).1.ask = b ∧ (fillOrder p h a b).1.bid = a := by
  unfold fillOrder
  rw [hb]
  simp

theorem fillOrder_ask_of_ask {h : Heap} {a : Addr} (p : ℚ) (b : Addr)
    (hb : (hget h a).bid = false) :
    (fillOrder p h a b).1.ask = a ∧ (fillOrder p h a b).1.bid = b := by
  unfold fillOrder
  rw [hb]
  simp

theorem fillSizes_sizeFilled {h : Heap} {a b : Addr} (hab : a ≠ b) :
    (fillSizes h a b).1 = min (hget h a).size (hget h b).size := by
  unfold fillSizes
  split
  · next hle =>
    simp only
    rw [hget_hset_ne _ hab, min_eq_right hle]
  · next hlt =>
    simp only
    rw [hget_hset_ne _ (Ne.symm hab), min_eq_left (le_of_not_le hlt)]

theorem fillSizes_incoming {h : Heap} {a b : Addr}
    (ha : a < h.length) (hb : b < h.length) (hab : a ≠ b) :
    (hget (fillSizes h a b).2 b).size
      = (hget h b).size - (fillSizes h a b).1 := by
  have hb1 : b < (hset h a { hget h a with
      size := (hget h a).size - (hget h b).size }).length := by
    rw [length_hset]; exact hb
  unfold fillSizes
  split
  · next hle =>
    simp only
    rw [hget_hset_self hb1]
    simp [hget_hset_ne _ hab]
  · next hlt =>
    simp only
    rw [hget_hset_ne _ hab, hget_hset_self hb]
    simp [hget_hset_ne _ (Ne.symm hab)]

theorem fillSizes_resting {h : Heap} {a b : Addr}
    (ha : a < h.length) (hb : b < h.length) (hab : a ≠ b) :
    (hget (fillSizes h a b).2 a).size
      = (hget h a).size - (fillSizes h a b).1 := by
  have ha1 : a < (hset h b { hget h b with
      size := (hget h b).size - (hget h a).size }).length := by
    rw [length_hset]; exact ha
  unfold fillSizes
  split
  · next hle =>
    simp only
    rw [hget_hset_ne _ (Ne.symm hab), hget_hset_self ha]
    simp [hget_hset_ne _ hab]
  · next hlt =>
    simp only
    rw [hget_hset_self ha1]
    simp [hget_hset_ne _ (Ne.symm hab)]

theorem fillSizes_frame (h : Heap) (a b : Addr) {x : Addr}
    (hxa : x ≠ a) (hxb : x ≠ b) :
    hget (fillSizes h a b).2 x = hget h x := by
  unfold fillSizes
  split
  · simp only
    rw [hget_hset_ne _ (Ne.symm hxb), hget_hset_ne _ (Ne.symm hxa)]
  · simp only
    rw [hget_hset_ne _ (Ne.symm hxa), hget_hset_ne _ (Ne.symm hxb)]

theorem fillSizes_core (h : Heap) (a b : Addr) (x : Addr) :
    sameCore (hget (fillSizes h a b).2 x) (hget h x) := by
  unfold fillSizes
  split <;> simp only <;>
  · refine sameCore_trans (hget_hset_core ?_ x) (hget_hset_core ?_ x) <;>
      exact ⟨rfl, rfl, rfl, rfl⟩

theorem fillOrder_core (p : ℚ) (h : Heap) (a b : Addr) (x : Addr) :
    sameCore (hget (fillOrder p h a b).2 x) (hget h x) :=
  fillSizes_core h a b x

/-! ### `fillPass` lemmas (the matching loop of `Limit.Fill`) -/

theorem fillPass_length (p : ℚ) (os : List Addr) (o : Addr) (h : Heap) :
    (fillPass p os o h).1.length = h.length := by
  induction os generalizing h with
  | nil => rfl
  | cons a rest ih =>
    simp only [fillPass]
    split
    · rfl
    · simp only [ih, fillOrder_length]

theorem fillPass_core (p : ℚ) (os : List Addr) (o : Addr) (h : Heap)
    (x : Addr) :
    sameCore (hget (fillPass p os o h).1 x) (hget h x) := by
  induction os generalizing h with
  | nil => exact sameCore_refl _
  | cons a rest ih =>
    simp only [fillPass]
    split
    · exact sameCore_refl _
    · exact sameCore_trans (ih _) (fillOrder_core p h a o x)

theorem fillPass_frame (p : ℚ) {os : List Addr} {o : Addr} (h : Heap)
    {x : Addr} (hxos : x ∉ os) (hxo : x ≠ o) :
    hget (fillPass p os o h).1 x = hget h x := by
  induction os generalizing h with
  | nil => rfl
  | cons a rest ih =>
    have hxa : x ≠ a := fun hx => hxos (hx ▸ List.mem_cons_self a rest)
    have hxrest : x ∉ rest := fun hx => hxos (List.mem_cons_of_mem a hx)
    simp only [fillPass]
    split
    · rfl
    · rw [ih _ hxrest, fillOrder_heap_def, fillSizes_frame h a o hxa hxo]

theorem fillPass_price (p : ℚ) (os : List Addr) (o : Addr) (h : Heap) :
    ∀ m ∈ (fillPass p os o h).2.1, m.price = p := by
  induction os generalizing h with
  | nil => intro m hm; simp [fillPass] at hm
  | cons a rest ih =>
    intro m hm
    simp only [fillPass] at hm
    split at hm
    · simp at hm
    · simp only [List.mem_cons] at hm
      rcases hm with rfl | hm
      · exact fillOrder_price p h a o
      · exact ih _ m hm

theorem fillPass_incoming (p : ℚ) {os : List Addr} {o : Addr} {h : Heap}
    (hbos : ∀ x ∈ os, x < h.length) (ho : o < h.length) (hno : o ∉ os) :
    (hget (fillPass p os o h).1 o).size
      = (hget h o).size - ((fillPass p os o h).2.1.map Match.sizeFilled).sum := by
  induction os generalizing h with
  | nil => simp [fillPass]
  | cons a rest ih =>
    have hao : a ≠ o := fun hx => hno (hx ▸ List.mem_cons_self a rest)
    have ha : a < h.length := hbos a (List.mem_cons_self a rest)
    have hno' : o ∉ rest := fun hx => hno (List.mem_cons_of_mem a hx)
    simp only [fillPass]
    split
    · simp
    · have hlen : (fillOrder p h a o).2.length = h.length :=
        fillOrder_length p h a o
      have hbos' : ∀ x ∈ rest, x < (fillOrder p h a o).2.length := by
        intro x hx; rw [hlen]; exact hbos x (List.mem_cons_of_mem a hx)
      have ho' : o < (fillOrder p h a o).2.length := by rw [hlen]; exact ho
      simp only [List.map_cons, List.sum_cons]
      rw [ih hbos' ho' hno', fillOrder_heap_def,
        fillSizes_incoming ha ho hao, fillOrder_sizeFilled_def]
      ring

theorem fillPass_level_sum (p : ℚ) {os : List Addr} {o : Addr} {h : Heap}
    (hbos : ∀ x ∈ os, x < h.length) (ho : o < h.length) (hno : o ∉ os)
    (hnd : os.Nodup) :
    (os.map (fun x => (hget (fillPass p os o h).1 x).size)).sum
      = (os.map (fun x => (hget h x).size)).sum
        - ((fillPass p os o h).2.1.map Match.sizeFilled).sum := by
  induction os generalizing h with
  | nil => simp [fillPass]
  | cons a rest ih =>
    have hao : a ≠ o := fun hx => hno (hx ▸ List.mem_cons_self a rest)
    have ha : a < h.length := hbos a (List.mem_cons_self a rest)
    have hno' : o ∉ rest := fun hx => hno (List.mem_cons_of_mem a hx)
    have hanr : a ∉ rest := (List.nodup_cons.mp hnd).1
    have hnd' : rest.Nodup := (List.nodup_cons.mp hnd).2
    simp only [fillPass]
    split
    · simp
    · have hlen : (fillOrder p h a o).2.length = h.length :=
        fillOrder_length p h a o
      have hbos' : ∀ x ∈ rest, x < (fillOrder p h a o).2.length := by
        intro x hx; rw [hlen]; exact hbos x (List.mem_cons_of_mem a hx)
      have ho' : o < (fillOrder p h a o).2.length := by rw [hlen]; exact ho
      simp only [List.map_cons, List.sum_cons]
      have hfa : hget (fillPass p rest o (fillOrder p h a o).2).1 a
          = hget (fillOrder p h a o).2 a :=
        fillPass_frame p _ hanr hao
      have hrest : (rest.map (fun x =>
            (hget (fillOrder p h a o).2 x).size)).sum
          = (rest.map (fun x => (hget h x).size)).sum := by
        refine congrArg List.sum (List.map_congr_left ?_)
        intro x hx
        have hxa : x ≠ a := fun he => hanr (he ▸ hx)
        have hxo : x ≠ o := fun he => hno' (he ▸ hx)
        rw [fillOrder_heap_def, fillSizes_frame h a o hxa hxo]
      rw [ih hbos' ho' hno' hnd', hfa, hrest, fillOrder_heap_def,
        fillSizes_resting ha ho hao, fillOrder_sizeFilled_def]
      ring

/-! ### `deleteScan` lemmas (the removal loop of `Limit.DeleteOrder`) -/

/-- Concrete evaluation of the removal loop on a one-element list. -/
theorem deleteScan_singleton (a : Addr) : deleteScan [a] a 0 = [] := by
  rw [deleteScan]
  split
  · split
    · rw [show (([a].set 0 ([a].getLastD 0)).dropLast : List Addr) = []
        from rfl]
      rw [deleteScan]
      rw [dif_neg (by norm_num)]
    · next h => exact absurd rfl h
  · next h => exact absurd (by norm_num : (0 : Nat) < [a].length) h



theorem take_cons_drop (xs : List Addr) (i : Nat) (hi : i < xs.length) :
    xs = xs.take i ++ xs.get ⟨i, hi⟩ :: xs.drop (i + 1) := by
  rw [List.get_eq_getElem, List.getElem_cons_drop, List.take_append_drop]

/-- The swap-remove step of the Go loop is, up to order, removal of position
`i`. -/
theorem swap_remove_perm (xs : List Addr) (i : Nat) (hi : i < xs.length) :
    ((xs.set i (xs.getLastD 0)).dropLast).Perm
      (xs.take i ++ xs.drop (i + 1)) := by
  rcases List.eq_nil_or_concat (xs.drop (i + 1)) with hd | ⟨q, z, hd⟩
  · have h1 : xs.set i (xs.getLastD 0) = xs.take i ++ [xs.getLastD 0] := by
      rw [List.set_eq_take_append_cons_drop, if_pos hi, hd]
    rw [h1, hd, List.dropLast_concat, List.append_nil]
  · rw [List.concat_eq_append] at hd
    have hz : xs.getLastD 0 = z := by
      conv_lhs => rw [← List.take_append_drop (i + 1) xs, hd,
        ← List.append_assoc]
      rw [List.getLastD_concat]
    have h1 : xs.set i (xs.getLastD 0)
        = (xs.take i ++ z :: q) ++ [z] := by
      rw [List.set_eq_take_append_cons_drop, if_pos hi, hd, hz]
      simp
    rw [h1, List.dropLast_concat, hd]
    exact List.Perm.append_left _ (List.perm_append_singleton z q).symm

theorem deleteScan_no_hit : ∀ (xs : List Addr) (o : Addr) (i : Nat),
    (∀ j, i ≤ j → ∀ (hj : j < xs.length), xs.get ⟨j, hj⟩ ≠ o) →
    deleteScan xs o i = xs := by
  intro xs o i
  induction xs, o, i using deleteScan.induct with
  | case1 xs i h ih =>
    intro hno
    exact absurd rfl (hno i le_rfl h)
  | case2 xs o i h hne ih =>
    intro hno
    rw [deleteScan, dif_pos h, if_neg hne]
    exact ih fun j hj hjl => hno j (Nat.le_of_succ_le hj) hjl
  | case3 xs o i h =>
    intro hno
    rw [deleteScan, dif_neg h]

theorem deleteScan_of_not_mem {xs : List Addr} {o : Addr} (i : Nat)
    (hno : o ∉ xs) : deleteScan xs o i = xs :=
  deleteScan_no_hit xs o i fun j _ hj he => hno (he ▸ List.get_mem xs j hj)

/-- On a duplicate-free list containing `o`, the Go removal loop removes
exactly `o` (up to the order disturbance repaired by the subsequent sort). -/
theorem deleteScan_perm : ∀ (xs : List Addr) (o : Addr) (i : Nat),
    xs.Nodup → o ∈ xs → o ∉ xs.take i →
    (deleteScan xs o i).Perm (xs.erase o) := by
  intro xs o i
  induction xs, o, i using deleteScan.induct with
  | case1 xs i h ih =>
    intro hnd _ hpre
    set g := xs.get ⟨i, h⟩ with hg
    have hdec := take_cons_drop xs i h
    have herase : xs.erase g = xs.take i ++ xs.drop (i + 1) := by
      conv_lhs => rw [hdec]
      rw [List.erase_append_right _ hpre, List.erase_cons_head]
    have hnd' : (xs.take i ++ g :: xs.drop (i + 1)).Nodup := by
      rw [← hdec]; exact hnd
    have honot : g ∉ xs.take i ++ xs.drop (i + 1) := by
      rw [List.nodup_append] at hnd'
      rcases hnd' with ⟨_, hnd2, hdisj⟩
      rcases List.nodup_cons.mp hnd2 with ⟨hod, _⟩
      intro hmem
      rcases List.mem_append.mp hmem with hm | hm
      · exact hdisj hm (List.mem_cons_self _ _)
      · exact hod hm
    have hperm := swap_remove_perm xs i h
    have hnotmem : g ∉ (xs.set i (xs.getLastD 0)).dropLast :=
      fun hm => honot (hperm.mem_iff.mp hm)
    rw [deleteScan, dif_pos h, if_pos hg.symm,
      deleteScan_of_not_mem (i + 1) hnotmem, herase]
    exact hperm
  | case2 xs o i h hne ih =>
    intro hnd hmem hpre
    rw [deleteScan, dif_pos h, if_neg hne]
    refine ih hnd hmem ?_
    intro hmem'
    rw [List.take_succ] at hmem'
    rcases List.mem_append.mp hmem' with hm | hm
    · exact hpre hm
    · have : xs[i]? = some (xs.get ⟨i, h⟩) := by
        rw [List.getElem?_eq_getElem h, List.get_eq_getElem]
      rw [this] at hm
      simp only [Option.toList_some, List.mem_singleton] at hm
      exact hne hm.symm
  | case3 xs o i h =>
    intro hnd hmem hpre
    rw [List.take_of_length_le (Nat.le_of_not_lt h)] at hpre
    exact absurd hmem hpre

/-! ### `Limit.deleteOrder` lemmas -/

theorem hget_hset_size {h : Heap} {a : Addr} {o : Order}
    (ho : o.size = (hget h a).size) (x : Addr) :
    (hget (hset h a o) x).size = (hget h x).size := by
  rcases eq_or_ne a x with rfl | hax
  · rcases Nat.lt_or_ge a h.length with hlt | hge
    · rw [hget_hset_self hlt, ho]
    · rw [hset_of_le hge]
  · rw [hget_hset_ne h hax]

theorem deleteOrder_heap (l : Limit) (h : Heap) (a : Addr) :
    (l.deleteOrder h a).2 = hset h a { hget h a with limitRef := none } := rfl

theorem deleteOrder_size (l : Limit) (h : Heap) (a : Addr) (x : Addr) :
    (hget (l.deleteOrder h a).2 x).size = (hget h x).size := by
  show (hget (hset h a { hget h a with limitRef := none }) x).size
    = (hget h x).size
  exact @hget_hset_size h a { hget h a with limitRef := none } rfl x

theorem deleteOrder_core (l : Limit) (h : Heap) (a : Addr) (x : Addr) :
    sameCore (hget (l.deleteOrder h a).2 x) (hget h x) := by
  show sameCore (hget (hset h a { hget h a with limitRef := none }) x)
    (hget h x)
  exact @hget_hset_core h a { hget h a with limitRef := none }
    ⟨rfl, rfl, rfl, rfl⟩ x

theorem deleteOrder_frame (l : Limit) (h : Heap) {a x : Addr} (hax : a ≠ x) :
    hget (l.deleteOrder h a).2 x = hget h x :=
  hget_hset_ne h hax _

theorem deleteOrder_length (l : Limit) (h : Heap) (a : Addr) :
    (l.deleteOrder h a).2.length = h.length :=
  length_hset h a _

theorem deleteOrder_price (l : Limit) (h : Heap) (a : Addr) :
    (l.deleteOrder h a).1.price = l.price := rfl

theorem deleteOrder_tv (l : Limit) (h : Heap) (a : Addr) :
    (l.deleteOrder h a).1.totalVolume
      = l.totalVolume - (hget h a).size := by
  have h1 : (hget (hset h a { hget h a with limitRef := none }) a).size
      = (hget h a).size :=
    @hget_hset_size h a { hget h a with limitRef := none } rfl a
  show l.totalVolume
      - (hget (hset h a { hget h a with limitRef := none }) a).size
    = l.totalVolume - (hget h a).size
  rw [h1]

theorem deleteOrder_orders_perm {l : Limit} (h : Heap) {a : Addr}
    (hnd : l.orders.Nodup) (hmem : a ∈ l.orders) :
    (l.deleteOrder h a).1.orders.Perm (l.orders.erase a) :=
  (List.perm_insertionSort _ _).trans
    (deleteScan_perm l.orders a 0 hnd hmem (by simp))

/-! ### The deletion fold at the end of `Limit.Fill` -/

theorem foldDel_heap_size (ds : List Addr) (lv : Limit) (hh : Heap)
    (x : Addr) :
    (hget (ds.foldl (fun p a => Limit.deleteOrder p.1 p.2 a) (lv, hh)).2 x).size
      = (hget hh x).size := by
  induction ds generalizing lv hh with
  | nil => rfl
  | cons d rest ih =>
    simp only [List.foldl_cons]
    rw [ih]
    exact deleteOrder_size lv hh d x

theorem foldDel_core (ds : List Addr) (lv : Limit) (hh : Heap) (x : Addr) :
    sameCore
      (hget (ds.foldl (fun p a => Limit.deleteOrder p.1 p.2 a) (lv, hh)).2 x)
      (hget hh x) := by
  induction ds generalizing lv hh with
  | nil => exact sameCore_refl _
  | cons d rest ih =>
    simp only [List.foldl_cons]
    exact sameCore_trans (ih _ _) (deleteOrder_core lv hh d x)

theorem foldDel_frame {ds : List Addr} (lv : Limit) (hh : Heap) {x : Addr}
    (hx : x ∉ ds) :
    hget (ds.foldl (fun p a => Limit.deleteOrder p.1 p.2 a) (lv, hh)).2 x
      = hget hh x := by
  induction ds generalizing lv hh with
  | nil => rfl
  | cons d rest ih =>
    have hxd : d ≠ x := fun he => hx (he ▸ List.mem_cons_self d rest)
    have hxr : x ∉ rest := fun hm => hx (List.mem_cons_of_mem d hm)
    simp only [List.foldl_cons]
    rw [ih _ _ hxr, deleteOrder_frame lv hh hxd]

theorem foldDel_length (ds : List Addr) (lv : Limit) (hh : Heap) :
    (ds.foldl (fun p a => Limit.deleteOrder p.1 p.2 a) (lv, hh)).2.length
      = hh.length := by
  induction ds generalizing lv hh with
  | nil => rfl
  | cons d rest ih =>
    simp only [List.foldl_cons]
    rw [ih, deleteOrder_length]

theorem foldDel_price (ds : List Addr) (lv : Limit) (hh : Heap) :
    (ds.foldl (fun p a => Limit.deleteOrder p.1 p.2 a) (lv, hh)).1.price
      = lv.price := by
  induction ds generalizing lv hh with
  | nil => rfl
  | cons d rest ih =>
    simp only [List.foldl_cons]
    rw [ih, deleteOrder_price]

/-- The deletion fold preserves per-level volume consistency,
duplicate-freeness and membership in the original order list. -/
theorem foldDel_invariant (ds : List Addr) (lv : Limit) (hh : Heap)
    (hnd : lv.orders.Nodup) (hdnd : ds.Nodup)
    (hsub : ∀ d ∈ ds, d ∈ lv.orders) (hvol : lv.volOK hh) :
    (ds.foldl (fun p a => Limit.deleteOrder p.1 p.2 a) (lv, hh)).1.volOK
        (ds.foldl (fun p a => Limit.deleteOrder p.1 p.2 a) (lv, hh)).2 ∧
    (ds.foldl (fun p a => Limit.deleteOrder p.1 p.2 a) (lv, hh)).1.orders.Nodup ∧
    ∀ x ∈ (ds.foldl (fun p a => Limit.deleteOrder p.1 p.2 a) (lv, hh)).1.orders,
      x ∈ lv.orders := by
  induction ds generalizing lv hh with
  | nil => exact ⟨hvol, hnd, fun x hx => hx⟩
  | cons d rest ih =>
    have hdin : d ∈ lv.orders := hsub d (List.mem_cons_self d rest)
    have hperm := deleteOrder_orders_perm hh hnd hdin
    have hpc : lv.orders.Perm (d :: lv.orders.erase d) :=
      List.perm_cons_erase hdin
    have hnd1 : (lv.deleteOrder hh d).1.orders.Nodup :=
      (hnd.erase d).perm hperm.symm
    have hvol1 : (lv.deleteOrder hh d).1.volOK (lv.deleteOrder hh d).2 := by
      unfold Limit.volOK
      rw [deleteOrder_tv]
      have hsz : ((lv.deleteOrder hh d).1.orders.map
            (fun x => (hget (lv.deleteOrder hh d).2 x).size)).sum
          = ((lv.deleteOrder hh d).1.orders.map
            (fun x => (hget hh x).size)).sum := by
        refine congrArg List.sum (List.map_congr_left ?_)
        intro x _
        exact deleteOrder_size lv hh d x
      have hsum : ((lv.deleteOrder hh d).1.orders.map
            (fun x => (hget hh x).size)).sum
          = (lv.orders.map (fun x => (hget hh x).size)).sum
            - (hget hh d).size := by
        have h1 := (hperm.map (fun x => (hget hh x).size)).sum_eq
        have h2 := (hpc.map (fun x => (hget hh x).size)).sum_eq
        simp only [List.map_cons, List.sum_cons] at h2
        rw [h1, h2]
        ring
      rw [hsz, hsum, hvol]
    have hsub1 : ∀ x ∈ rest, x ∈ (lv.deleteOrder hh d).1.orders := by
      intro x hx
      have hxd : x ≠ d := by
        intro he
        exact (List.nodup_cons.mp hdnd).1 (he ▸ hx)
      rw [hperm.mem_iff]
      exact (List.mem_erase_of_ne hxd).mpr (hsub x (List.mem_cons_of_mem d hx))
    simp only [List.foldl_cons]
    have hrec := ih (lv.deleteOrder hh d).1 (lv.deleteOrder hh d).2 hnd1
      (List.nodup_cons.mp hdnd).2 hsub1 hvol1
    refine ⟨hrec.1, hrec.2.1, ?_⟩
    intro x hx
    have hx1 := hrec.2.2 x hx
    rw [hperm.mem_iff] at hx1
    exact List.mem_of_mem_erase hx1

/-! ### Remaining `fillPass` lemmas -/

theorem fillPass_dels_sublist (p : ℚ) (os : List Addr) (o : Addr) (h : Heap) :
    (fillPass p os o h).2.2.Sublist os := by
  induction os generalizing h with
  | nil => simp [fillPass]
  | cons a rest ih =>
    simp only [fillPass]
    split
    · simp
    · simp only
      split
      · simpa using (ih _).cons₂ a
      · simpa using (ih _).cons a

theorem fillPass_ne_nil (p : ℚ) (a : Addr) (rest : List Addr) (o : Addr)
    (h : Heap) (hz : (hget h o).size ≠ 0) :
    (fillPass p (a :: rest) o h).2.1 ≠ [] := by
  simp only [fillPass]
  rw [if_neg hz]
  simp

theorem fillPass_consume (p : ℚ) {os : List Addr} {o : Addr} {h : Heap}
    (hbos : ∀ x ∈ os, x < h.length) (ho : o < h.length) (hno : o ∉ os)
    (hnd : os.Nodup) (hnn : ∀ x ∈ os, 0 ≤ (hget h x).size)
    (hos : 0 ≤ (hget h o).size) :
    (hget (fillPass p os o h).1 o).size
      = max ((hget h o).size - (os.map (fun x => (hget h x).size)).sum) 0 := by
  induction os generalizing h with
  | nil =>
    simp only [fillPass, List.map_nil, List.sum_nil]
    rw [sub_zero, max_eq_left hos]
  | cons a rest ih =>
    have hao : a ≠ o := fun hx => hno (hx ▸ List.mem_cons_self a rest)
    have ha : a < h.length := hbos a (List.mem_cons_self a rest)
    have hno' : o ∉ rest := fun hx => hno (List.mem_cons_of_mem a hx)
    have hanr : a ∉ rest := (List.nodup_cons.mp hnd).1
    have hnd' := (List.nodup_cons.mp hnd).2
    have hann : 0 ≤ (hget h a).size := hnn a (List.mem_cons_self a rest)
    have hsumnn : 0 ≤ (rest.map (fun x => (hget h x).size)).sum := by
      refine List.sum_nonneg ?_
      intro q hq
      rcases List.mem_map.mp hq with ⟨x, hx, rfl⟩
      exact hnn x (List.mem_cons_of_mem a hx)
    simp only [fillPass, List.map_cons, List.sum_cons]
    split
    · next hz =>
      rw [hz]
      symm
      rw [max_eq_right]
      linarith
    · next hz =>
      have hlen : (fillOrder p h a o).2.length = h.length :=
        fillOrder_length p h a o
      have hbos' : ∀ x ∈ rest, x < (fillOrder p h a o).2.length := by
        intro x hx; rw [hlen]; exact hbos x (List.mem_cons_of_mem a hx)
      have ho' : o < (fillOrder p h a o).2.length := by rw [hlen]; exact ho
      have hrfr : ∀ x ∈ rest, hget (fillOrder p h a o).2 x = hget h x := by
        intro x hx
        have hxa : x ≠ a := fun he => hanr (he ▸ hx)
        have hxo : x ≠ o := fun he => hno' (he ▸ hx)
        rw [fillOrder_heap_def, fillSizes_frame h a o hxa hxo]
      have hnn' : ∀ x ∈ rest, 0 ≤ (hget (fillOrder p h a o).2 x).size := by
        intro x hx; rw [hrfr x hx]; exact hnn x (List.mem_cons_of_mem a hx)
      have hsf : (fillOrder p h a o).1.sizeFilled
          = min (hget h a).size (hget h o).size := by
        rw [fillOrder_sizeFilled_def, fillSizes_sizeFilled hao]
      have hso' : (hget (fillOrder p h a o).2 o).size
          = (hget h o).size - min (hget h a).size (hget h o).size := by
        rw [fillOrder_heap_def, fillSizes_incoming ha ho hao,
          ← fillOrder_sizeFilled_def, hsf]
      have hos' : 0 ≤ (hget (fillOrder p h a o).2 o).size := by
        rw [hso']
        have : min (hget h a).size (hget h o).size ≤ (hget h o).size :=
          min_le_right _ _
        linarith
      have hrec := ih hbos' ho' hno' hnd' hnn' hos'
      have hrsum : (rest.map
            (fun x => (hget (fillOrder p h a o).2 x).size)).sum
          = (rest.map (fun x => (hget h x).size)).sum := by
        refine congrArg List.sum (List.map_congr_left ?_)
        intro x hx
        rw [hrfr x hx]
      rw [hrec, hrsum, hso']
      rcases le_total (hget h a).size (hget h o).size with hc | hc
      · rw [min_eq_left hc]
        congr 1
        ring
      · rw [min_eq_right hc, sub_self]
        rw [max_eq_right (by linarith), max_eq_right (by linarith)]

theorem fillOrder_resting_addr (p : ℚ) (h : Heap) (a b : Addr) (tb : Bool)
    (hfb : (hget h a).bid = !tb) :
    restingOf tb (fillOrder p h a b).1 = a := by
  cases tb with
  | true =>
    simp only [Bool.not_true] at hfb
    exact (fillOrder_ask_of_ask p b hfb).1
  | false =>
    simp only [Bool.not_false] at hfb
    exact (fillOrder_ask_of_bid p b hfb).2

/-- The resting parties of the matches of one level fill are exactly a prefix
of the level's order list, in order. -/
theorem fillPass_resting_take (p : ℚ) (tb : Bool) {os : List Addr} {o : Addr}
    {h : Heap} (hfb : ∀ x ∈ os, (hget h x).bid = !tb) :
    (fillPass p os o h).2.1.map (restingOf tb)
      = os.take (fillPass p os o h).2.1.length := by
  induction os generalizing h with
  | nil => simp [fillPass]
  | cons a rest ih =>
    simp only [fillPass]
    split
    · simp
    · simp only [List.map_cons, List.length_cons, List.take_succ_cons]
      have hfb' : ∀ x ∈ rest,
          (hget (fillOrder p h a o).2 x).bid = !tb := by
        intro x hx
        have hc := fillOrder_core p h a o x
        rw [hc.2.2.1]
        exact hfb x (List.mem_cons_of_mem a hx)
      rw [ih hfb',
        fillOrder_resting_addr p h a o tb (hfb a (List.mem_cons_self a rest))]

/-! ### `Limit.fill` bundle -/

theorem fill_matches (l : Limit) (h : Heap) (o : Addr) :
    (l.fill h o).2.2 = (fillPass l.price l.orders o h).2.1 := rfl

theorem fill_price (l : Limit) (h : Heap) (o : Addr) :
    (l.fill h o).1.price = l.price :=
  foldDel_price _ _ _

theorem fill_heap_size (l : Limit) (h : Heap) (o : Addr) (x : Addr) :
    (hget (l.fill h o).2.1 x).size
      = (hget (fillPass l.price l.orders o h).1 x).size :=
  foldDel_heap_size _ _ _ x

theorem fill_core (l : Limit) (h : Heap) (o : Addr) (x : Addr) :
    sameCore (hget (l.fill h o).2.1 x) (hget h x) :=
  sameCore_trans (foldDel_core _ _ _ x) (fillPass_core _ _ _ _ x)

theorem fill_length (l : Limit) (h : Heap) (o : Addr) :
    (l.fill h o).2.1.length = h.length :=
  (foldDel_length _ _ _).trans (fillPass_length _ _ _ _)

theorem fill_frame (l : Limit) (h : Heap) (o : Addr) {x : Addr}
    (hx : x ∉ l.orders) (hxo : x ≠ o) :
    hget (l.fill h o).2.1 x = hget h x := by
  have hdel : x ∉ (fillPass l.price l.orders o h).2.2 :=
    fun hm => hx ((fillPass_dels_sublist l.price l.orders o h).subset hm)
  exact (foldDel_frame _ _ hdel).trans (fillPass_frame _ _ hx hxo)

theorem fill_volOK {l : Limit} {h : Heap} {o : Addr}
    (hbos : ∀ x ∈ l.orders, x < h.length) (ho : o < h.length)
    (hno : o ∉ l.orders) (hnd : l.orders.Nodup) (hvol : l.volOK h) :
    (l.fill h o).1.volOK (l.fill h o).2.1 ∧ (l.fill h o).1.orders.Nodup ∧
      ∀ x ∈ (l.fill h o).1.orders, x ∈ l.orders := by
  have hsub := fillPass_dels_sublist l.price l.orders o h
  have l1vol : (⟨l.price, l.orders, l.totalVolume
      - ((fillPass l.price l.orders o h).2.1.map Match.sizeFilled).sum⟩
        : Limit).volOK (fillPass l.price l.orders o h).1 := by
    unfold Limit.volOK
    simp only
    rw [fillPass_level_sum l.price hbos ho hno hnd, hvol]
  exact foldDel_invariant _ _ _ hnd (hsub.nodup hnd)
    (fun d hd => hsub.subset hd) l1vol

theorem fill_incoming {l : Limit} {h : Heap} {o : Addr}
    (hbos : ∀ x ∈ l.orders, x < h.length) (ho : o < h.length)
    (hno : o ∉ l.orders) :
    (hget (l.fill h o).2.1 o).size
      = (hget h o).size - ((l.fill h o).2.2.map Match.sizeFilled).sum := by
  rw [fill_heap_size, fill_matches]
  exact fillPass_incoming l.price hbos ho hno

theorem fill_consume {l : Limit} {h : Heap} {o : Addr}
    (hbos : ∀ x ∈ l.orders, x < h.length) (ho : o < h.length)
    (hno : o ∉ l.orders) (hnd : l.orders.Nodup)
    (hnn : ∀ x ∈ l.orders, 0 ≤ (hget h x).size)
    (hos : 0 ≤ (hget h o).size) (hvol : l.volOK h) :
    (hget (l.fill h o).2.1 o).size
      = max ((hget h o).size - l.totalVolume) 0 := by
  rw [fill_heap_size, fillPass_consume l.price hbos ho hno hnd hnn hos, hvol]

theorem fill_matches_price (l : Limit) (h : Heap) (o : Addr) :
    ∀ m ∈ (l.fill h o).2.2, m.price = l.price := by
  rw [fill_matches]
  exact fillPass_price l.price l.orders o h

/-! ### `marketPass` lemmas (the level loop of `PlaceMarketOrder`) -/

theorem volOK_congr {l : Limit} {h h' : Heap}
    (he : ∀ x ∈ l.orders, (hget h' x).size = (hget h x).size) :
    l.volOK h → l.volOK h' := by
  intro hv
  unfold Limit.volOK at hv ⊢
  rw [hv]
  exact congrArg List.sum (List.map_congr_left fun a ha => (he a ha).symm)

theorem marketPass_length (o : Addr) (h : Heap) (ls : List Limit) :
    (marketPass o h ls).1.length = h.length := by
  induction ls generalizing h with
  | nil => rfl
  | cons l rest ih =>
    simp only [marketPass]
    rw [ih, fill_length]

theorem marketPass_core (o : Addr) (h : Heap) (ls : List Limit) (x : Addr) :
    sameCore (hget (marketPass o h ls).1 x) (hget h x) := by
  induction ls generalizing h with
  | nil => exact sameCore_refl _
  | cons l rest ih =>
    simp only [marketPass]
    exact sameCore_trans (ih _) (fill_core l h o x)

theorem marketPass_frame (o : Addr) (h : Heap) {ls : List Limit} {x : Addr}
    (hx : x ∉ addrsOfSide ls) (hxo : x ≠ o) :
    hget (marketPass o h ls).1 x = hget h x := by
  induction ls generalizing h with
  | nil => rfl
  | cons l rest ih =>
    have hxl : x ∉ l.orders := by
      intro hm
      exact hx (by simp [addrsOfSide, hm])
    have hxr : x ∉ addrsOfSide rest := by
      intro hm
      simp only [addrsOfSide, List.flatMap_cons, List.mem_append] at hx
      exact hx (Or.inr (by simpa [addrsOfSide] using hm))
    simp only [marketPass]
    rw [ih _ hxr, fill_frame l h o hxl hxo]

theorem marketPass_telescope (o : Addr) {h : Heap} {ls : List Limit}
    (hb : ∀ l ∈ ls, ∀ x ∈ l.orders, x < h.length) (ho : o < h.length)
    (hno : o ∉ addrsOfSide ls) :
    (hget (marketPass o h ls).1 o).size
      = (hget h o).size - ((marketPass o h ls).2.2.map Match.sizeFilled).sum := by
  induction ls generalizing h with
  | nil => simp [marketPass]
  | cons l rest ih =>
    have hnl : o ∉ l.orders := by
      intro hm
      exact hno (by simp [addrsOfSide, hm])
    have hnr : o ∉ addrsOfSide rest := by
      intro hm
      simp only [addrsOfSide, List.flatMap_cons, List.mem_append] at hno
      exact hno (Or.inr (by simpa [addrsOfSide] using hm))
    have hbl : ∀ x ∈ l.orders, x < h.length :=
      hb l (List.mem_cons_self l rest)
    have hlen := fill_length l h o
    have hb' : ∀ l' ∈ rest, ∀ x ∈ l'.orders, x < (l.fill h o).2.1.length := by
      intro l' hl' x hx
      rw [hlen]
      exact hb l' (List.mem_cons_of_mem l hl') x hx
    have ho' : o < (l.fill h o).2.1.length := by rw [hlen]; exact ho
    simp only [marketPass, List.map_append, List.sum_append]
    rw [ih hb' ho' hnr, fill_incoming hbl ho hnl]
    ring

theorem marketPass_consume (o : Addr) {h : Heap} {ls : List Limit}
    (hb : ∀ l ∈ ls, ∀ x ∈ l.orders, x < h.length) (ho : o < h.length)
    (hnd : (addrsOfSide ls).Nodup) (hno : o ∉ addrsOfSide ls)
    (hvol : ∀ l ∈ ls, l.volOK h)
    (hnn : ∀ l ∈ ls, ∀ x ∈ l.orders, 0 ≤ (hget h x).size)
    (hos : 0 ≤ (hget h o).size) :
    (hget (marketPass o h ls).1 o).size
      = max ((hget h o).size - (ls.map Limit.totalVolume).sum) 0 := by
  induction ls generalizing h with
  | nil =>
    simp only [marketPass, List.map_nil, List.sum_nil]
    rw [sub_zero, max_eq_left hos]
  | cons l rest ih =>
    have hmem := List.mem_cons_self l rest
    have hnl : o ∉ l.orders := by
      intro hm
      exact hno (by simp [addrsOfSide, hm])
    have hnr : o ∉ addrsOfSide rest := by
      intro hm
      simp only [addrsOfSide, List.flatMap_cons, List.mem_append] at hno
      exact hno (Or.inr (by simpa [addrsOfSide] using hm))
    have hdisj : ∀ x ∈ addrsOfSide rest, x ∉ l.orders := by
      intro x hx hxl
      have : (addrsOfSide (l :: rest)).Nodup := hnd
      rw [addrsOfSide, List.flatMap_cons, List.nodup_append] at this
      exact this.2.2 hxl (by simpa [addrsOfSide] using hx)
    have hbl : ∀ x ∈ l.orders, x < h.length := hb l hmem
    have hndl : l.orders.Nodup := by
      have := hnd
      rw [addrsOfSide, List.flatMap_cons, List.nodup_append] at this
      exact this.1
    have hndr : (addrsOfSide rest).Nodup := by
      have := hnd
      rw [addrsOfSide, List.flatMap_cons, List.nodup_append] at this
      exact (by simpa [addrsOfSide] using this.2.1)
    have hlen := fill_length l h o
    have hb' : ∀ l' ∈ rest, ∀ x ∈ l'.orders, x < (l.fill h o).2.1.length := by
      intro l' hl' x hx
      rw [hlen]
      exact hb l' (List.mem_cons_of_mem l hl') x hx
    have ho' : o < (l.fill h o).2.1.length := by rw [hlen]; exact ho
    have hfr : ∀ x ∈ addrsOfSide rest,
        hget (l.fill h o).2.1 x = hget h x := by
      intro x hx
      have hxo : x ≠ o := fun he => hnr (he ▸ hx)
      exact fill_frame l h o (hdisj x hx) hxo
    have hvol' : ∀ l' ∈ rest, l'.volOK (l.fill h o).2.1 := by
      intro l' hl'
      refine volOK_congr ?_ (hvol l' (List.mem_cons_of_mem l hl'))
      intro x hx
      rw [hfr x (by
        simp only [addrsOfSide, List.mem_flatMap]
        exact ⟨l', hl', hx⟩)]
    have hnn' : ∀ l' ∈ rest, ∀ x ∈ l'.orders,
        0 ≤ (hget (l.fill h o).2.1 x).size := by
      intro l' hl' x hx
      rw [hfr x (by
        simp only [addrsOfSide, List.mem_flatMap]
        exact ⟨l', hl', hx⟩)]
      exact hnn l' (List.mem_cons_of_mem l hl') x hx
    have hcons := fill_consume hbl ho hnl hndl (hnn l hmem) hos
      (hvol l hmem)
    have hos' : 0 ≤ (hget (l.fill h o).2.1 o).size := by
      rw [hcons]; exact le_max_right _ _
    have hrec := ih hb' ho' hndr hnr hvol' hnn' hos'
    have hrtvnn : 0 ≤ (rest.map Limit.totalVolume).sum := by
      refine List.sum_nonneg ?_
      intro q hq
      rcases List.mem_map.mp hq with ⟨l', hl', rfl⟩
      have := hvol l' (List.mem_cons_of_mem l hl')
      rw [this]
      refine List.sum_nonneg ?_
      intro q' hq'
      rcases List.mem_map.mp hq' with ⟨x, hx, rfl⟩
      exact hnn l' (List.mem_cons_of_mem l hl') x hx
    simp only [marketPass, List.map_cons, List.sum_cons]
    rw [hrec, hcons]
    rcases le_total l.totalVolume (hget h o).size with hc | hc
    · have h1 : max ((hget h o).size - l.totalVolume) 0
          = (hget h o).size - l.totalVolume := max_eq_left (by linarith)
      rw [h1]
      congr 1
      ring
    · have h1 : max ((hget h o).size - l.totalVolume) 0 = 0 :=
        max_eq_right (by linarith)
      rw [h1]
      have h2 : max ((0:ℚ) - (rest.map Limit.totalVolume).sum) 0 = 0 :=
        max_eq_right (by linarith)
      rw [h2]
      symm
      exact max_eq_right (by linarith)

/-- Every surviving level of the loop is volume-consistent in the final heap,
and its orders all come from the original side. -/
theorem marketPass_volOK (o : Addr) {h : Heap} {ls : List Limit}
    (hb : ∀ l ∈ ls, ∀ x ∈ l.orders, x < h.length) (ho : o < h.length)
    (hnd : (addrsOfSide ls).Nodup) (hno : o ∉ addrsOfSide ls)
    (hvol : ∀ l ∈ ls, l.volOK h) :
    (∀ l' ∈ (marketPass o h ls).2.1, l'.volOK (marketPass o h ls).1) ∧
    (∀ x ∈ addrsOfSide (marketPass o h ls).2.1, x ∈ addrsOfSide ls) := by
  induction ls generalizing h with
  | nil => exact ⟨by simp [marketPass], by simp [marketPass]⟩
  | cons l rest ih =>
    have hmem := List.mem_cons_self l rest
    have hnl : o ∉ l.orders := by
      intro hm
      exact hno (by simp [addrsOfSide, hm])
    have hnr : o ∉ addrsOfSide rest := by
      intro hm
      simp only [addrsOfSide, List.flatMap_cons, List.mem_append] at hno
      exact hno (Or.inr (by simpa [addrsOfSide] using hm))
    have hdisj : ∀ x ∈ addrsOfSide rest, x ∉ l.orders := by
      intro x hx hxl
      have := hnd
      rw [addrsOfSide, List.flatMap_cons, List.nodup_append] at this
      exact this.2.2 hxl (by simpa [addrsOfSide] using hx)
    have hbl : ∀ x ∈ l.orders, x < h.length := hb l hmem
    have hndl : l.orders.Nodup := by
      have := hnd
      rw [addrsOfSide, List.flatMap_cons, List.nodup_append] at this
      exact this.1
    have hndr : (addrsOfSide rest).Nodup := by
      have := hnd
      rw [addrsOfSide, List.flatMap_cons, List.nodup_append] at this
      exact (by simpa [addrsOfSide] using this.2.1)
    have hlen := fill_length l h o
    have hb' : ∀ l' ∈ rest, ∀ x ∈ l'.orders, x < (l.fill h o).2.1.length := by
      intro l' hl' x hx
      rw [hlen]
      exact hb l' (List.mem_cons_of_mem l hl') x hx
    have ho' : o < (l.fill h o).2.1.length := by rw [hlen]; exact ho
    have hfr : ∀ x ∈ addrsOfSide rest,
        hget (l.fill h o).2.1 x = hget h x := by
      intro x hx
      have hxo : x ≠ o := fun he => hnr (he ▸ hx)
      exact fill_frame l h o (hdisj x hx) hxo
    have hvol' : ∀ l' ∈ rest, l'.volOK (l.fill h o).2.1 := by
      intro l' hl'
      refine volOK_congr ?_ (hvol l' (List.mem_cons_of_mem l hl'))
      intro x hx
      rw [hfr x (by
        simp only [addrsOfSide, List.mem_flatMap]
        exact ⟨l', hl', hx⟩)]
    have hfb := fill_volOK hbl ho hnl hndl (hvol l hmem)
    have hrec := ih hb' ho' hndr hnr hvol'
    have hsurv : (l.fill h o).1.volOK (marketPass o (l.fill h o).2.1 rest).1 := by
      refine volOK_congr ?_ hfb.1
      intro x hx
      have hxl : x ∈ l.orders := hfb.2.2 x hx
      have hxr : x ∉ addrsOfSide rest := fun hm => hdisj x hm hxl
      have hxo : x ≠ o := fun he => hnl (he ▸ hxl)
      have := marketPass_frame o (l.fill h o).2.1 hxr hxo
      rw [this]
    simp only [marketPass]
    constructor
    · split
      · exact hrec.1
      · intro l' hl'
        rcases List.mem_cons.mp hl' with rfl | hl'
        · exact hsurv
        · exact hrec.1 l' hl'
    · split
      · intro x hx
        have := hrec.2 x hx
        simp only [addrsOfSide, List.flatMap_cons, List.mem_append]
        right
        simpa [addrsOfSide] using this
      · intro x hx
        rw [addrsOfSide, List.flatMap_cons, List.mem_append] at hx
        simp only [addrsOfSide, List.flatMap_cons, List.mem_append]
        rcases hx with hx | hx
        · exact Or.inl (hfb.2.2 x hx)
        · right
          have := hrec.2 x (by simpa [addrsOfSide] using hx)
          simpa [addrsOfSide] using this

theorem marketPass_price_mem (o : Addr) (h : Heap) (ls : List Limit) :
    ∀ m ∈ (marketPass o h ls).2.2, m.price ∈ ls.map Limit.price := by
  induction ls generalizing h with
  | nil => simp [marketPass]
  | cons l rest ih =>
    intro m hm
    simp only [marketPass, List.mem_append] at hm
    simp only [List.map_cons, List.mem_cons]
    rcases hm with hm | hm
    · exact Or.inl (fill_matches_price l h o m hm)
    · exact Or.inr (ih _ m hm)

/-! ### Price-time priority of the produced matches -/

theorem priceTimeLe_congr (tb : Bool) {h h' : Heap}
    (ht : ∀ x, (hget h' x).timestamp = (hget h x).timestamp)
    {m1 m2 : Match} (hp : priceTimeLe tb h m1 m2) :
    priceTimeLe tb h' m1 m2 := by
  refine ⟨hp.1, fun he => ?_⟩
  rw [ht, ht]
  exact hp.2 he

theorem sorted_tsLe_congr {h h' : Heap}
    (ht : ∀ x, (hget h' x).timestamp = (hget h x).timestamp)
    {os : List Addr} (hs : os.Sorted (tsLe h)) : os.Sorted (tsLe h') := by
  refine hs.imp ?_
  intro a b hab
  unfold tsLe at hab ⊢
  rw [ht, ht]
  exact hab

/-- The matches of one level fill are internally in price-time priority
order: same price, resting timestamps non-decreasing. -/
theorem fill_matches_pairwise (l : Limit) (h : Heap) (o : Addr) (tb : Bool)
    (hfb : ∀ x ∈ l.orders, (hget h x).bid = !tb)
    (hsorted : l.orders.Sorted (tsLe h)) :
    List.Pairwise (priceTimeLe tb h) (l.fill h o).2.2 := by
  have htake := fillPass_resting_take l.price tb hfb (o := o)
  have hptake : List.Pairwise (tsLe h)
      (l.orders.take (fillPass l.price l.orders o h).2.1.length) :=
    List.Pairwise.sublist (List.take_sublist _ _) hsorted
  rw [← htake] at hptake
  have hpair : List.Pairwise
      (fun m1 m2 => tsLe h (restingOf tb m1) (restingOf tb m2))
      (fillPass l.price l.orders o h).2.1 := List.pairwise_map.mp hptake
  rw [fill_matches]
  refine hpair.imp_of_mem ?_
  intro m1 m2 hm1 hm2 hts12
  have e1 : m1.price = l.price :=
    fillPass_price l.price l.orders o h m1 hm1
  have e2 : m2.price = l.price :=
    fillPass_price l.price l.orders o h m2 hm2
  refine ⟨?_, fun _ => hts12⟩
  cases tb <;> simp [e1, e2]

/-- All matches of a market-order pass are in price-time priority order:
levels are consumed best-first (strictly ordered prices), FIFO within a
level. -/
theorem marketPass_pairwise (o : Addr) {h : Heap} {ls : List Limit}
    (tb : Bool)
    (hfb : ∀ l ∈ ls, ∀ x ∈ l.orders, (hget h x).bid = !tb)
    (hts : ∀ l ∈ ls, l.orders.Sorted (tsLe h))
    (hnd : (addrsOfSide ls).Nodup) (hno : o ∉ addrsOfSide ls)
    (hsortp : List.Pairwise (fun l1 l2 : Limit =>
        cond tb (l1.price < l2.price) (l2.price < l1.price)) ls) :
    List.Pairwise (priceTimeLe tb h) (marketPass o h ls).2.2 := by
  induction ls generalizing h with
  | nil => simp [marketPass]
  | cons l rest ih =>
    have hmem := List.mem_cons_self l rest
    have hnl : o ∉ l.orders := by
      intro hm
      exact hno (by simp [addrsOfSide, hm])
    have hnr : o ∉ addrsOfSide rest := by
      intro hm
      simp only [addrsOfSide, List.flatMap_cons, List.mem_append] at hno
      exact hno (Or.inr (by simpa [addrsOfSide] using hm))
    have hndr : (addrsOfSide rest).Nodup := by
      have := hnd
      rw [addrsOfSide, List.flatMap_cons, List.nodup_append] at this
      exact (by simpa [addrsOfSide] using this.2.1)
    have htc : ∀ x, (hget (l.fill h o).2.1 x).timestamp
        = (hget h x).timestamp := fun x => (fill_core l h o x).2.2.2
    have hfb' : ∀ l' ∈ rest, ∀ x ∈ l'.orders,
        (hget (l.fill h o).2.1 x).bid = !tb := by
      intro l' hl' x hx
      rw [(fill_core l h o x).2.2.1]
      exact hfb l' (List.mem_cons_of_mem l hl') x hx
    have hts' : ∀ l' ∈ rest, l'.orders.Sorted (tsLe (l.fill h o).2.1) := by
      intro l' hl'
      exact sorted_tsLe_congr htc (hts l' (List.mem_cons_of_mem l hl'))
    have hrec := ih hfb' hts' hndr hnr (List.pairwise_cons.mp hsortp).2
    have hrec' : List.Pairwise (priceTimeLe tb h)
        (marketPass o (l.fill h o).2.1 rest).2.2 := by
      refine hrec.imp ?_
      intro m1 m2 hp
      have htc2 : ∀ x, (hget h x).timestamp
          = (hget (l.fill h o).2.1 x).timestamp := fun x => (htc x).symm
      exact priceTimeLe_congr tb htc2 hp
    have hblock := fill_matches_pairwise l h o tb (hfb l hmem) (hts l hmem)
    have hcross : ∀ m1 ∈ (l.fill h o).2.2,
        ∀ m2 ∈ (marketPass o (l.fill h o).2.1 rest).2.2,
        priceTimeLe tb h m1 m2 := by
      intro m1 hm1 m2 hm2
      have e1 : m1.price = l.price := fill_matches_price l h o m1 hm1
      have hp2 := marketPass_price_mem o (l.fill h o).2.1 rest m2 hm2
      rcases List.mem_map.mp hp2 with ⟨l2, hl2, he2⟩
      have hlt := (List.pairwise_cons.mp hsortp).1 l2 hl2
      constructor
      · cases tb with
        | true =>
          show m1.price ≤ m2.price
          rw [e1, ← he2]
          exact le_of_lt hlt
        | false =>
          show m2.price ≤ m1.price
          rw [e1, ← he2]
          exact le_of_lt hlt
      · intro he
        exfalso
        rw [e1, ← he2] at he
        cases tb with
        | true => exact absurd he (ne_of_lt hlt)
        | false => exact absurd he.symm (ne_of_lt hlt)
    simp only [marketPass]
    rw [List.pairwise_append]
    exact ⟨hblock, hrec', hcross⟩

/-! ### Bridging the book state to the market-order loop -/

theorem mem_sortedAsks {ob : Orderbook} {l : Limit}
    (hl : l ∈ sortedAsks ob) : l ∈ ob.asks :=
  (List.perm_insertionSort askLe ob.asks).subset hl

theorem mem_sortedBids {ob : Orderbook} {l : Limit}
    (hl : l ∈ sortedBids ob) : l ∈ ob.bids :=
  (List.perm_insertionSort bidGe ob.bids).subset hl

theorem addrs_sortedAsks_perm (ob : Orderbook) :
    (addrsOfSide (sortedAsks ob)).Perm (addrsOfSide ob.asks) :=
  List.Perm.flatMap_right Limit.orders (List.perm_insertionSort askLe ob.asks)

theorem addrs_sortedBids_perm (ob : Orderbook) :
    (addrsOfSide (sortedBids ob)).Perm (addrsOfSide ob.bids) :=
  List.Perm.flatMap_right Limit.orders (List.perm_insertionSort bidGe ob.bids)

theorem mem_addrsOfSide {ls : List Limit} {l : Limit} {x : Addr}
    (hl : l ∈ ls) (hx : x ∈ l.orders) : x ∈ addrsOfSide ls := by
  simp only [addrsOfSide, List.mem_flatMap]
  exact ⟨l, hl, hx⟩

/-- The hypotheses `marketPass` needs, established for the sorted ask side
over the heap extended with the incoming order. -/
theorem askBridge (ob : Orderbook) (o : Order)
    (hvol : volumeOK ob) (hwf : addrsWF ob) (hnn : sizesNonneg ob) :
    (∀ l ∈ sortedAsks ob, ∀ x ∈ l.orders, x < (ob.heap ++ [o]).length) ∧
    (addrsOfSide (sortedAsks ob)).Nodup ∧
    ob.heap.length ∉ addrsOfSide (sortedAsks ob) ∧
    (∀ l ∈ sortedAsks ob, l.volOK (ob.heap ++ [o])) ∧
    (∀ l ∈ sortedAsks ob, ∀ x ∈ l.orders, 0 ≤ (hget (ob.heap ++ [o]) x).size) ∧
    ((sortedAsks ob).map Limit.totalVolume).sum = askTotalVolume ob := by
  have hlt : ∀ l ∈ sortedAsks ob, ∀ x ∈ l.orders, x < ob.heap.length := by
    intro l hl x hx
    refine hwf.2 x ?_
    exact List.mem_append.mpr (Or.inl (mem_addrsOfSide (mem_sortedAsks hl) hx))
  have hh0 : ∀ l ∈ sortedAsks ob, ∀ x ∈ l.orders,
      hget (ob.heap ++ [o]) x = hget ob.heap x := by
    intro l hl x hx
    exact hget_append_lt (hlt l hl x hx) [o]
  refine ⟨?_, ?_, ?_, ?_, ?_, ?_⟩
  · intro l hl x hx
    rw [List.length_append]
    exact Nat.lt_succ_of_lt (hlt l hl x hx)
  · have hnd : (addrsOfSide ob.asks).Nodup :=
      (List.nodup_append.mp hwf.1).1
    exact hnd.perm (addrs_sortedAsks_perm ob).symm
  · intro hm
    exact absurd rfl (Nat.ne_of_lt (hwf.2 ob.heap.length
      (List.mem_append.mpr (Or.inl ((addrs_sortedAsks_perm ob).subset hm))))).symm
  · intro l hl
    refine volOK_congr ?_ (hvol.1 l (mem_sortedAsks hl))
    intro x hx
    rw [hh0 l hl x hx]
  · intro l hl x hx
    rw [hh0 l hl x hx]
    refine hnn x ?_
    exact List.mem_append.mpr (Or.inl (mem_addrsOfSide (mem_sortedAsks hl) hx))
  · exact ((List.perm_insertionSort askLe ob.asks).map Limit.totalVolume).sum_eq

/-- The same bridge for the sorted bid side. -/
theorem bidBridge (ob : Orderbook) (o : Order)
    (hvol : volumeOK ob) (hwf : addrsWF ob) (hnn : sizesNonneg ob) :
    (∀ l ∈ sortedBids ob, ∀ x ∈ l.orders, x < (ob.heap ++ [o]).length) ∧
    (addrsOfSide (sortedBids ob)).Nodup ∧
    ob.heap.length ∉ addrsOfSide (sortedBids ob) ∧
    (∀ l ∈ sortedBids ob, l.volOK (ob.heap ++ [o])) ∧
    (∀ l ∈ sortedBids ob, ∀ x ∈ l.orders, 0 ≤ (hget (ob.heap ++ [o]) x).size) ∧
    ((sortedBids ob).map Limit.totalVolume).sum = bidTotalVolume ob := by
  have hlt : ∀ l ∈ sortedBids ob, ∀ x ∈ l.orders, x < ob.heap.length := by
    intro l hl x hx
    refine hwf.2 x ?_
    exact List.mem_append.mpr (Or.inr (mem_addrsOfSide (mem_sortedBids hl) hx))
  have hh0 : ∀ l ∈ sortedBids ob, ∀ x ∈ l.orders,
      hget (ob.heap ++ [o]) x = hget ob.heap x := by
    intro l hl x hx
    exact hget_append_lt (hlt l hl x hx) [o]
  refine ⟨?_, ?_, ?_, ?_, ?_, ?_⟩
  · intro l hl x hx
    rw [List.length_append]
    exact Nat.lt_succ_of_lt (hlt l hl x hx)
  · have hnd : (addrsOfSide ob.bids).Nodup :=
      (List.nodup_append.mp hwf.1).2.1
    exact hnd.perm (addrs_sortedBids_perm ob).symm
  · intro hm
    exact absurd rfl (Nat.ne_of_lt (hwf.2 ob.heap.length
      (List.mem_append.mpr (Or.inr ((addrs_sortedBids_perm ob).subset hm))))).symm
  · intro l hl
    refine volOK_congr ?_ (hvol.2 l (mem_sortedBids hl))
    intro x hx
    rw [hh0 l hl x hx]
  · intro l hl x hx
    rw [hh0 l hl x hx]
    refine hnn x ?_
    exact List.mem_append.mpr (Or.inr (mem_addrsOfSide (mem_sortedBids hl) hx))
  · exact ((List.perm_insertionSort bidGe ob.bids).map Limit.totalVolume).sum_eq

/-! ### Claim theorems -/

/-- Claim C3: a market order whose size exceeds the opposite side's total
volume fails with INSUFFICIENT_LIQUIDITY (the source's liquidity panic,
raised before any mutation), so no partial fill occurs, the whole book state
(sides, order index, trade log) is exactly the pre-call state, and no Trade
is appended. -/
theorem C3_insufficient_liquidity_atomic (o : Order) (now : Int)
    (ob : Orderbook) (hlt : oppVolume o ob < o.size) :
    placeMarketOrder o now ob = (.error .insufficientLiquidity, ob) := by
  rw [oppVolume] at hlt
  unfold placeMarketOrder
  cases hb : o.bid with
  | true =>
    rw [hb, if_pos rfl] at hlt
    rw [if_pos rfl, if_pos hlt]
  | false =>
    rw [hb] at hlt
    rw [if_neg Bool.false_ne_true] at hlt
    rw [if_neg Bool.false_ne_true, if_pos hlt]

/-- Witness for C3 at scenario S5: ask of size 5 resting, market bid of
size 10. -/
theorem C3_insufficient_liquidity_atomic_witness :
    oppVolume wTaker wBook5 < wTaker.size ∧
    placeMarketOrder wTaker 5 wBook5
      = (.error .insufficientLiquidity, wBook5) := by
  have hlt : oppVolume wTaker wBook5 < wTaker.size := by
    norm_num [oppVolume, wTaker, wBook5, wAsk5, placeLimitOrder, addToSide,
      NewOrderbook, NewLimit, Limit.addOrder, mapInsert, hget, hset,
      askTotalVolume, bidTotalVolume]
  exact ⟨hlt, C3_insufficient_liquidity_atomic wTaker 5 wBook5 hlt⟩

theorem ok_destruct_bid {o : Order} {now : Int} {ob : Orderbook}
    {ms : List Match} {ob' : Orderbook} (hb : o.bid = true)
    (hok : placeMarketOrder o now ob = (.ok ms, ob')) :
    o.size ≤ askTotalVolume ob ∧
    ms = (marketPass ob.heap.length (ob.heap ++ [o]) (sortedAsks ob)).2.2 ∧
    ob'.heap = (marketPass ob.heap.length (ob.heap ++ [o]) (sortedAsks ob)).1 ∧
    ob'.asks = (marketPass ob.heap.length (ob.heap ++ [o]) (sortedAsks ob)).2.1 ∧
    ob'.bids = ob.bids ∧
    ob'.ordersById = ob.ordersById ∧
    ob'.trades = ob.trades
      ++ ms.map (fun m => Trade.mk m.price m.sizeFilled o.bid now) := by
  unfold placeMarketOrder at hok
  rw [hb, if_pos rfl] at hok
  by_cases hgt : o.size > askTotalVolume ob
  · rw [if_pos hgt] at hok
    simp at hok
  · rw [if_neg hgt] at hok
    simp only at hok
    split_ifs at hok with hemp
    · simp at hok
    · rw [Prod.mk.injEq, Except.ok.injEq] at hok
      obtain ⟨h1, h2⟩ := hok
      subst h1
      refine ⟨not_lt.mp hgt, rfl, ?_, ?_, ?_, ?_, ?_⟩ <;>
        · rw [← h2]
          try simp [hb]

theorem ok_destruct_ask {o : Order} {now : Int} {ob : Orderbook}
    {ms : List Match} {ob' : Orderbook} (hb : o.bid = false)
    (hok : placeMarketOrder o now ob = (.ok ms, ob')) :
    o.size ≤ bidTotalVolume ob ∧
    ms = (marketPass ob.heap.length (ob.heap ++ [o]) (sortedBids ob)).2.2 ∧
    ob'.heap = (marketPass ob.heap.length (ob.heap ++ [o]) (sortedBids ob)).1 ∧
    ob'.bids = (marketPass ob.heap.length (ob.heap ++ [o]) (sortedBids ob)).2.1 ∧
    ob'.asks = ob.asks ∧
    ob'.ordersById = ob.ordersById ∧
    ob'.trades = ob.trades
      ++ ms.map (fun m => Trade.mk m.price m.sizeFilled o.bid now) := by
  unfold placeMarketOrder at hok
  rw [hb, if_neg Bool.false_ne_true] at hok
  by_cases hgt : o.size > bidTotalVolume ob
  · rw [if_pos hgt] at hok
    simp at hok
  · rw [if_neg hgt] at hok
    simp only at hok
    split_ifs at hok with hemp
    · simp at hok
    · rw [Prod.mk.injEq, Except.ok.injEq] at hok
      obtain ⟨h1, h2⟩ := hok
      subst h1
      refine ⟨not_lt.mp hgt, rfl, ?_, ?_, ?_, ?_, ?_⟩ <;>
        · rw [← h2]
          try simp [hb]

/-- Claim C1: for every `PlaceMarketOrder` call that returns normally (on a
book satisfying the spec's volume, index-distinctness and non-negative-size
invariants, with a non-negatively sized incoming order), the sum of
`SizeFilled` over the returned matches equals
`min(incoming size, opposite volume)`; since the pre-check makes the size at
most the opposite volume, the sum equals the incoming size and the incoming
order ends fully filled (`Size == 0`). -/
theorem C1_market_conservation (o : Order) (now : Int) (ob : Orderbook)
    (ms : List Match) (ob' : Orderbook)
    (hvol : volumeOK ob) (hwf : addrsWF ob) (hnn : sizesNonneg ob)
    (hsz : 0 ≤ o.size)
    (hok : placeMarketOrder o now ob = (.ok ms, ob')) :
    (ms.map Match.sizeFilled).sum = min o.size (oppVolume o ob) ∧
    (ms.map Match.sizeFilled).sum = o.size ∧
    (hget ob'.heap ob.heap.length).size = 0 := by
  have ho : ob.heap.length < (ob.heap ++ [o]).length := by simp
  have hin0 : hget (ob.heap ++ [o]) ob.heap.length = o :=
    hget_append_self ob.heap o
  have hsz0 : 0 ≤ (hget (ob.heap ++ [o]) ob.heap.length).size := by
    rw [hin0]; exact hsz
  cases hb : o.bid with
  | true =>
    obtain ⟨hle, hms, hheap, _, _, _, _⟩ := ok_destruct_bid hb hok
    obtain ⟨hb1, hb2, hb3, hb4, hb5, hb6⟩ := askBridge ob o hvol hwf hnn
    have hcons := marketPass_consume ob.heap.length hb1 ho hb2 hb3 hb4 hb5 hsz0
    rw [hin0, hb6] at hcons
    have hzero : (hget (marketPass ob.heap.length (ob.heap ++ [o])
        (sortedAsks ob)).1 ob.heap.length).size = 0 := by
      rw [hcons]
      exact max_eq_right (by linarith)
    have htele := marketPass_telescope ob.heap.length hb1 ho hb3
    rw [hin0, hzero] at htele
    have hsum : (ms.map Match.sizeFilled).sum = o.size := by
      rw [hms]
      linarith
    refine ⟨?_, hsum, ?_⟩
    · rw [hsum, oppVolume, hb, if_pos rfl, min_eq_left hle]
    · rw [hheap]
      exact hzero
  | false =>
    obtain ⟨hle, hms, hheap, _, _, _, _⟩ := ok_destruct_ask hb hok
    obtain ⟨hb1, hb2, hb3, hb4, hb5, hb6⟩ := bidBridge ob o hvol hwf hnn
    have hcons := marketPass_consume ob.heap.length hb1 ho hb2 hb3 hb4 hb5 hsz0
    rw [hin0, hb6] at hcons
    have hzero : (hget (marketPass ob.heap.length (ob.heap ++ [o])
        (sortedBids ob)).1 ob.heap.length).size = 0 := by
      rw [hcons]
      exact max_eq_right (by linarith)
    have htele := marketPass_telescope ob.heap.length hb1 ho hb3
    rw [hin0, hzero] at htele
    have hsum : (ms.map Match.sizeFilled).sum = o.size := by
      rw [hms]
      linarith
    refine ⟨?_, hsum, ?_⟩
    · rw [hsum, oppVolume, hb, if_neg Bool.false_ne_true, min_eq_left hle]
    · rw [hheap]
      exact hzero

theorem wBook_volumeOK : volumeOK wBook := by
  norm_num [volumeOK, wBook, wAsk, placeLimitOrder, addToSide, NewOrderbook,
    NewLimit, Limit.addOrder, mapInsert, hget, hset, Limit.volOK]

theorem wBook_addrsWF : addrsWF wBook := by
  norm_num [addrsWF, allAddrs, addrsOfSide, wBook, wAsk, placeLimitOrder,
    addToSide, NewOrderbook, NewLimit, Limit.addOrder, mapInsert, hget, hset]

theorem wBook_sizesNonneg : sizesNonneg wBook := by
  norm_num [sizesNonneg, allAddrs, addrsOfSide, wBook, wAsk, placeLimitOrder,
    addToSide, NewOrderbook, NewLimit, Limit.addOrder, mapInsert, hget, hset]

/-- Witness for C1 at scenario S1:  a size-10 market bid against a resting
size-20 ask fills exactly 10 and ends fully filled. -/
theorem C1_market_conservation_witness :
    volumeOK wBook ∧ addrsWF wBook ∧ sizesNonneg wBook ∧ 0 ≤ wTaker.size ∧
    ((wMs.map Match.sizeFilled).sum = min wTaker.size (oppVolume wTaker wBook) ∧
     (wMs.map Match.sizeFilled).sum = wTaker.size ∧
     (hget wOb.heap wBook.heap.length).size = 0) := by
  have h1 : volumeOK wBook := wBook_volumeOK
  have h2 : addrsWF wBook := wBook_addrsWF
  have h3 : sizesNonneg wBook := wBook_sizesNonneg
  have h4 : (0 : ℚ) ≤ wTaker.size := by norm_num [wTaker]
  have hbeval : wBook
      = ⟨[⟨1, 0, 20, false, some 10000, 1⟩], [⟨10000, [0], 20⟩],
         [], [], [(1, 0)]⟩ := by
    norm_num [wBook, wAsk, placeLimitOrder, addToSide, NewOrderbook, NewLimit,
      Limit.addOrder, mapInsert, hget, hset]
  have e1 : askTotalVolume
      (⟨[⟨1, 0, 20, false, some 10000, 1⟩], [⟨10000, [0], 20⟩],
        [], [], [(1, 0)]⟩ : Orderbook) = 20 := by
    norm_num [askTotalVolume]
  have e2 : sortedAsks
      (⟨[⟨1, 0, 20, false, some 10000, 1⟩], [⟨10000, [0], 20⟩],
        [], [], [(1, 0)]⟩ : Orderbook) = [⟨10000, [0], 20⟩] := by
    norm_num [sortedAsks, List.insertionSort, List.orderedInsert]
  have e4 : marketPass 1
      [⟨1, 0, 20, false, some 10000, 1⟩, ⟨2, 7, 10, true, none, 2⟩]
      [⟨10000, [0], 20⟩]
      = ([⟨1, 0, 10, false, some 10000, 1⟩, ⟨2, 7, 0, true, none, 2⟩],
         [⟨10000, [0], 10⟩], [⟨0, 1, 10, 10000⟩]) := by
    norm_num [marketPass, Limit.fill, fillPass, fillOrder, fillSizes,
      hget, hset]
  have hpm : placeMarketOrder wTaker 2 wBook
      = (.ok [⟨0, 1, 10, 10000⟩],
         ⟨[⟨1, 0, 10, false, some 10000, 1⟩, ⟨2, 7, 0, true, none, 2⟩],
          [⟨10000, [0], 10⟩], [], [⟨10000, 10, true, 2⟩], [(1, 0)]⟩) := by
    rw [hbeval]
    unfold placeMarketOrder
    simp only [e1, e2]
    norm_num [wTaker]
    simp only [e4]
    norm_num
  have hok : placeMarketOrder wTaker 2 wBook = (.ok wMs, wOb) := by
    show _ = (Except.ok (((placeMarketOrder wTaker 2 wBook).1).toOption.getD []),
      (placeMarketOrder wTaker 2 wBook).2)
    rw [hpm]
    rfl
  exact ⟨h1, h2, h3, h4,
    C1_market_conservation wTaker 2 wBook wMs wOb h1 h2 h3 h4 hok⟩

/-- Counterexample to claim C8 as stated: on the fresh empty book a size-0
market bid passes the liquidity pre-check (0 is not greater than the ask
volume 0) yet produces no match, and the unconditional
`Trades[len(Trades)-1]` read aborts the call (the modelled `emptyTrades`
panic) because the trade log is empty. -/
theorem C8_counterexample :
    (mkOrder true 0 7 2 2).size ≤ askTotalVolume NewOrderbook ∧
    placeMarketOrder (mkOrder true 0 7 2 2) 5 NewOrderbook
      = (.error .emptyTrades, ⟨[mkOrder true 0 7 2 2], [], [], [], []⟩) := by
  constructor
  · norm_num [mkOrder, askTotalVolume, NewOrderbook]
  · norm_num [placeMarketOrder, mkOrder, askTotalVolume, NewOrderbook,
      sortedAsks, marketPass, List.insertionSort]

/-- Claim C8, amended: every `PlaceMarketOrder` call that passes the
liquidity pre-check with a strictly positive incoming size, against a book
satisfying the volume, index-distinctness and non-negative-size invariants,
produces at least one Match; the cumulative trade log is then non-empty when
the final log line reading `Trades[len(Trades)-1]` executes, so that access
is in bounds and the call returns normally. -/
theorem C8_trades_access_in_bounds (o : Order) (now : Int) (ob : Orderbook)
    (hvol : volumeOK ob) (hwf : addrsWF ob) (hnn : sizesNonneg ob)
    (hpos : 0 < o.size) (hle : o.size ≤ oppVolume o ob) :
    ∃ ms ob', placeMarketOrder o now ob = (.ok ms, ob') ∧ ms ≠ [] ∧
      ob'.trades ≠ [] := by
  have ho : ob.heap.length < (ob.heap ++ [o]).length := by simp
  have hin0 : hget (ob.heap ++ [o]) ob.heap.length = o :=
    hget_append_self ob.heap o
  have hsz0 : 0 ≤ (hget (ob.heap ++ [o]) ob.heap.length).size := by
    rw [hin0]; exact le_of_lt hpos
  rw [oppVolume] at hle
  cases hb : o.bid with
  | true =>
    rw [hb, if_pos rfl] at hle
    obtain ⟨hb1, hb2, hb3, hb4, hb5, hb6⟩ := askBridge ob o hvol hwf hnn
    have hcons := marketPass_consume ob.heap.length hb1 ho hb2 hb3 hb4 hb5 hsz0
    rw [hin0, hb6] at hcons
    have hzero : (hget (marketPass ob.heap.length (ob.heap ++ [o])
        (sortedAsks ob)).1 ob.heap.length).size = 0 := by
      rw [hcons]
      exact max_eq_right (by linarith)
    have htele := marketPass_telescope ob.heap.length hb1 ho hb3
    rw [hin0, hzero] at htele
    have hmsne : (marketPass ob.heap.length (ob.heap ++ [o])
        (sortedAsks ob)).2.2 ≠ [] := by
      intro hnil
      rw [hnil] at htele
      simp at htele
      linarith
    have htrne : (ob.trades ++ (marketPass ob.heap.length (ob.heap ++ [o])
        (sortedAsks ob)).2.2.map
          (fun m => Trade.mk m.price m.sizeFilled true now)) ≠ [] := by
      intro hnil
      rcases List.append_eq_nil.mp hnil with ⟨_, hmap⟩
      exact hmsne (List.map_eq_nil_iff.mp hmap)
    have hemp : (ob.trades ++ (marketPass ob.heap.length (ob.heap ++ [o])
        (sortedAsks ob)).2.2.map
          (fun m => Trade.mk m.price m.sizeFilled true now)).isEmpty
        = false := by
      rw [List.isEmpty_eq_false]
      exact htrne
    unfold placeMarketOrder
    rw [hb, if_pos rfl, if_neg (not_lt.mpr hle)]
    simp only [hemp, Bool.false_eq_true, if_false]
    exact ⟨_, _, rfl, hmsne, htrne⟩
  | false =>
    rw [hb, if_neg Bool.false_ne_true] at hle
    obtain ⟨hb1, hb2, hb3, hb4, hb5, hb6⟩ := bidBridge ob o hvol hwf hnn
    have hcons := marketPass_consume ob.heap.length hb1 ho hb2 hb3 hb4 hb5 hsz0
    rw [hin0, hb6] at hcons
    have hzero : (hget (marketPass ob.heap.length (ob.heap ++ [o])
        (sortedBids ob)).1 ob.heap.length).size = 0 := by
      rw [hcons]
      exact max_eq_right (by linarith)
    have htele := marketPass_telescope ob.heap.length hb1 ho hb3
    rw [hin0, hzero] at htele
    have hmsne : (marketPass ob.heap.length (ob.heap ++ [o])
        (sortedBids ob)).2.2 ≠ [] := by
      intro hnil
      rw [hnil] at htele
      simp at htele
      linarith
    have htrne : (ob.trades ++ (marketPass ob.heap.length (ob.heap ++ [o])
        (sortedBids ob)).2.2.map
          (fun m => Trade.mk m.price m.sizeFilled false now)) ≠ [] := by
      intro hnil
      rcases List.append_eq_nil.mp hnil with ⟨_, hmap⟩
      exact hmsne (List.map_eq_nil_iff.mp hmap)
    have hemp : (ob.trades ++ (marketPass ob.heap.length (ob.heap ++ [o])
        (sortedBids ob)).2.2.map
          (fun m => Trade.mk m.price m.sizeFilled false now)).isEmpty
        = false := by
      rw [List.isEmpty_eq_false]
      exact htrne
    unfold placeMarketOrder
    rw [hb, if_neg Bool.false_ne_true, if_neg (not_lt.mpr hle)]
    simp only [hemp, Bool.false_eq_true, if_false]
    exact ⟨_, _, rfl, hmsne, htrne⟩

/-- Witness for the amended C8, at scenario S1. -/
theorem C8_trades_access_in_bounds_witness :
    volumeOK wBook ∧ addrsWF wBook ∧ sizesNonneg wBook ∧ 0 < wTaker.size ∧
    wTaker.size ≤ oppVolume wTaker wBook ∧
    ∃ ms ob', placeMarketOrder wTaker 2 wBook = (.ok ms, ob') ∧ ms ≠ [] ∧
      ob'.trades ≠ [] := by
  have h4 : (0 : ℚ) < wTaker.size := by norm_num [wTaker]
  have h5 : wTaker.size ≤ oppVolume wTaker wBook := by
    norm_num [oppVolume, wTaker, wBook, wAsk, placeLimitOrder, addToSide,
      NewOrderbook, NewLimit, Limit.addOrder, mapInsert, hget, hset,
      askTotalVolume]
  exact ⟨wBook_volumeOK, wBook_addrsWF, wBook_sizesNonneg, h4, h5,
    C8_trades_access_in_bounds wTaker 2 wBook wBook_volumeOK wBook_addrsWF
      wBook_sizesNonneg h4 h5⟩

theorem placeMarketOrder_insufficient (o : Order) (now : Int)
    (ob : Orderbook) (hlt : oppVolume o ob < o.size) :
    placeMarketOrder o now ob = (.error .insufficientLiquidity, ob) := by
  rw [oppVolume] at hlt
  unfold placeMarketOrder
  cases hb : o.bid with
  | true =>
    rw [hb, if_pos rfl] at hlt
    rw [if_pos rfl, if_pos hlt]
  | false =>
    rw [hb] at hlt
    rw [if_neg Bool.false_ne_true] at hlt
    rw [if_neg Bool.false_ne_true, if_pos hlt]

theorem placeMarketOrder_snd_bid {o : Order} {now : Int} {ob : Orderbook}
    (hb : o.bid = true) (hle : ¬ o.size > askTotalVolume ob) :
    (placeMarketOrder o now ob).2 = { ob with
      heap := (marketPass ob.heap.length (ob.heap ++ [o]) (sortedAsks ob)).1,
      asks := (marketPass ob.heap.length (ob.heap ++ [o]) (sortedAsks ob)).2.1,
      trades := ob.trades
        ++ (marketPass ob.heap.length (ob.heap ++ [o])
            (sortedAsks ob)).2.2.map
          (fun m => Trade.mk m.price m.sizeFilled true now) } := by
  unfold placeMarketOrder
  rw [hb, if_pos rfl, if_neg hle]
  simp only
  split <;> rfl

theorem placeMarketOrder_snd_ask {o : Order} {now : Int} {ob : Orderbook}
    (hb : o.bid = false) (hle : ¬ o.size > bidTotalVolume ob) :
    (placeMarketOrder o now ob).2 = { ob with
      heap := (marketPass ob.heap.length (ob.heap ++ [o]) (sortedBids ob)).1,
      bids := (marketPass ob.heap.length (ob.heap ++ [o]) (sortedBids ob)).2.1,
      trades := ob.trades
        ++ (marketPass ob.heap.length (ob.heap ++ [o])
            (sortedBids ob)).2.2.map
          (fun m => Trade.mk m.price m.sizeFilled false now) } := by
  unfold placeMarketOrder
  rw [hb, if_neg Bool.false_ne_true, if_neg hle]
  simp only
  split <;> rfl

/-- Claim C10: `PlaceMarketOrder` never modifies the same side of the book
as the incoming order: for a market bid the bid level list (and hence the
derived bid price map) and every order resting on the bid side are
unchanged, symmetrically for a market ask; and matching mutates only the
`Size` field (and, on removal, the level reference) of the orders involved,
never their id, user id, side or timestamp. -/
theorem C10_market_frame (o : Order) (now : Int) (ob : Orderbook)
    (hwf : addrsWF ob) :
    (o.bid = true →
      (placeMarketOrder o now ob).2.bids = ob.bids ∧
      ∀ x ∈ addrsOfSide ob.bids,
        hget (placeMarketOrder o now ob).2.heap x = hget ob.heap x) ∧
    (o.bid = false →
      (placeMarketOrder o now ob).2.asks = ob.asks ∧
      ∀ x ∈ addrsOfSide ob.asks,
        hget (placeMarketOrder o now ob).2.heap x = hget ob.heap x) ∧
    (∀ x, x < ob.heap.length →
      sameCore (hget (placeMarketOrder o now ob).2.heap x) (hget ob.heap x))
    := by
  refine ⟨?_, ?_, ?_⟩
  · intro hb
    by_cases hgt : o.size > askTotalVolume ob
    · rw [placeMarketOrder_insufficient o now ob
        (by rw [oppVolume, hb, if_pos rfl]; exact hgt)]
      exact ⟨rfl, fun x _ => rfl⟩
    · rw [placeMarketOrder_snd_bid hb hgt]
      refine ⟨rfl, ?_⟩
      intro x hx
      simp only
      have hxlen : x < ob.heap.length :=
        hwf.2 x (List.mem_append.mpr (Or.inr hx))
      have hxask : x ∉ addrsOfSide (sortedAsks ob) := by
        intro hm
        exact (List.nodup_append.mp hwf.1).2.2
          ((addrs_sortedAsks_perm ob).subset hm) hx
      rw [marketPass_frame ob.heap.length (ob.heap ++ [o]) hxask
        (Nat.ne_of_lt hxlen), hget_append_lt hxlen]
  · intro hb
    by_cases hgt : o.size > bidTotalVolume ob
    · rw [placeMarketOrder_insufficient o now ob
        (by rw [oppVolume, hb, if_neg Bool.false_ne_true]; exact hgt)]
      exact ⟨rfl, fun x _ => rfl⟩
    · rw [placeMarketOrder_snd_ask hb hgt]
      refine ⟨rfl, ?_⟩
      intro x hx
      simp only
      have hxlen : x < ob.heap.length :=
        hwf.2 x (List.mem_append.mpr (Or.inl hx))
      have hxbid : x ∉ addrsOfSide (sortedBids ob) := by
        intro hm
        exact (List.nodup_append.mp hwf.1).2.2 hx
          ((addrs_sortedBids_perm ob).subset hm)
      rw [marketPass_frame ob.heap.length (ob.heap ++ [o]) hxbid
        (Nat.ne_of_lt hxlen), hget_append_lt hxlen]
  · intro x hxlen
    have happ : hget (ob.heap ++ [o]) x = hget ob.heap x :=
      hget_append_lt hxlen [o]
    cases hb : o.bid with
    | true =>
      by_cases hgt : o.size > askTotalVolume ob
      · rw [placeMarketOrder_insufficient o now ob
          (by rw [oppVolume, hb, if_pos rfl]; exact hgt)]
        exact sameCore_refl _
      · rw [placeMarketOrder_snd_bid hb hgt]
        simp only
        have hc := marketPass_core ob.heap.length (ob.heap ++ [o])
          (sortedAsks ob) x
        rw [happ] at hc
        exact hc
    | false =>
      by_cases hgt : o.size > bidTotalVolume ob
      · rw [placeMarketOrder_insufficient o now ob
          (by rw [oppVolume, hb, if_neg Bool.false_ne_true]; exact hgt)]
        exact sameCore_refl _
      · rw [placeMarketOrder_snd_ask hb hgt]
        simp only
        have hc := marketPass_core ob.heap.length (ob.heap ++ [o])
          (sortedBids ob) x
        rw [happ] at hc
        exact hc

/-- Witness for C10 at scenario S1. -/
theorem C10_market_frame_witness :
    addrsWF wBook ∧
    ((wTaker.bid = true →
      (placeMarketOrder wTaker 2 wBook).2.bids = wBook.bids ∧
      ∀ x ∈ addrsOfSide wBook.bids,
        hget (placeMarketOrder wTaker 2 wBook).2.heap x = hget wBook.heap x) ∧
     (wTaker.bid = false →
      (placeMarketOrder wTaker 2 wBook).2.asks = wBook.asks ∧
      ∀ x ∈ addrsOfSide wBook.asks,
        hget (placeMarketOrder wTaker 2 wBook).2.heap x = hget wBook.heap x) ∧
     (∀ x, x < wBook.heap.length →
      sameCore (hget (placeMarketOrder wTaker 2 wBook).2.heap x)
        (hget wBook.heap x))) :=
  ⟨wBook_addrsWF, C10_market_frame wTaker 2 wBook wBook_addrsWF⟩

theorem sorted_tsLe_congr_mem {h h' : Heap} {os : List Addr}
    (ht : ∀ x ∈ os, (hget h' x).timestamp = (hget h x).timestamp)
    (hs : os.Sorted (tsLe h)) : os.Sorted (tsLe h') := by
  refine hs.imp_of_mem ?_
  intro a b ha hb hab
  unfold tsLe at hab ⊢
  rw [ht a ha, ht b hb]
  exact hab

/-- Claim C2: for every successful `PlaceMarketOrder` call, on a book whose
resting orders are distinct, FIFO-sorted within each level, with one level
per price and orders resting on the side matching their own flag, the
returned matches are in price-time priority order: for a market bid the
prices are non-decreasing (best ask first), for a market ask non-increasing
(best bid first), and within one price the consumed resting orders'
timestamps are non-decreasing (FIFO). -/
theorem C2_price_time_priority (o : Order) (now : Int) (ob : Orderbook)
    (ms : List Match) (ob' : Orderbook)
    (hwf : addrsWF ob) (hts : timeSorted ob) (hpn : pricesNodup ob)
    (hsd : sidesOK ob)
    (hok : placeMarketOrder o now ob = (.ok ms, ob')) :
    List.Chain' (priceTimeLe o.bid ob'.heap) ms := by
  cases hb : o.bid with
  | true =>
    obtain ⟨hle, hms, hheap, _, _, _, _⟩ := ok_destruct_bid hb hok
    have hlt : ∀ l ∈ sortedAsks ob, ∀ x ∈ l.orders, x < ob.heap.length := by
      intro l hl x hx
      exact hwf.2 x (List.mem_append.mpr
        (Or.inl (mem_addrsOfSide (mem_sortedAsks hl) hx)))
    have hh0 : ∀ l ∈ sortedAsks ob, ∀ x ∈ l.orders,
        hget (ob.heap ++ [o]) x = hget ob.heap x := by
      intro l hl x hx
      exact hget_append_lt (hlt l hl x hx) [o]
    have hfb : ∀ l ∈ sortedAsks ob, ∀ x ∈ l.orders,
        (hget (ob.heap ++ [o]) x).bid = !true := by
      intro l hl x hx
      rw [hh0 l hl x hx]
      exact hsd.1 x (mem_addrsOfSide (mem_sortedAsks hl) hx)
    have hts' : ∀ l ∈ sortedAsks ob,
        l.orders.Sorted (tsLe (ob.heap ++ [o])) := by
      intro l hl
      refine sorted_tsLe_congr_mem ?_ (hts.1 l (mem_sortedAsks hl))
      intro x hx
      rw [hh0 l hl x hx]
    have hnd : (addrsOfSide (sortedAsks ob)).Nodup :=
      ((List.nodup_append.mp hwf.1).1).perm (addrs_sortedAsks_perm ob).symm
    have hno : ob.heap.length ∉ addrsOfSide (sortedAsks ob) := by
      intro hm
      have hl := hwf.2 ob.heap.length (List.mem_append.mpr
        (Or.inl ((addrs_sortedAsks_perm ob).subset hm)))
      exact absurd rfl (Nat.ne_of_lt hl).symm
    have hsortp : List.Pairwise (fun l1 l2 : Limit =>
        cond true (l1.price < l2.price) (l2.price < l1.price))
        (sortedAsks ob) := by
      have h1 : List.Pairwise askLe (sortedAsks ob) :=
        List.sorted_insertionSort askLe ob.asks
      have h2 : ((sortedAsks ob).map Limit.price).Nodup :=
        hpn.1.perm ((List.perm_insertionSort askLe ob.asks).map
          Limit.price).symm
      have h3 : List.Pairwise (fun l1 l2 : Limit => l1.price ≠ l2.price)
          (sortedAsks ob) := List.pairwise_map.mp h2
      refine (h1.and h3).imp ?_
      intro l1 l2 h
      exact lt_of_le_of_ne h.1 h.2
    have hpair := marketPass_pairwise ob.heap.length true hfb hts' hnd hno
      hsortp
    have htr : ∀ x, (hget ob'.heap x).timestamp
        = (hget (ob.heap ++ [o]) x).timestamp := by
      intro x
      rw [hheap]
      exact (marketPass_core ob.heap.length (ob.heap ++ [o])
        (sortedAsks ob) x).2.2.2
    have hpair' : List.Pairwise (priceTimeLe true ob'.heap) ms := by
      rw [hms]
      exact hpair.imp (priceTimeLe_congr true htr)
    exact hpair'.chain'
  | false =>
    obtain ⟨hle, hms, hheap, _, _, _, _⟩ := ok_destruct_ask hb hok
    have hlt : ∀ l ∈ sortedBids ob, ∀ x ∈ l.orders, x < ob.heap.length := by
      intro l hl x hx
      exact hwf.2 x (List.mem_append.mpr
        (Or.inr (mem_addrsOfSide (mem_sortedBids hl) hx)))
    have hh0 : ∀ l ∈ sortedBids ob, ∀ x ∈ l.orders,
        hget (ob.heap ++ [o]) x = hget ob.heap x := by
      intro l hl x hx
      exact hget_append_lt (hlt l hl x hx) [o]
    have hfb : ∀ l ∈ sortedBids ob, ∀ x ∈ l.orders,
        (hget (ob.heap ++ [o]) x).bid = !false := by
      intro l hl x hx
      rw [hh0 l hl x hx]
      exact hsd.2 x (mem_addrsOfSide (mem_sortedBids hl) hx)
    have hts' : ∀ l ∈ sortedBids ob,
        l.orders.Sorted (tsLe (ob.heap ++ [o])) := by
      intro l hl
      refine sorted_tsLe_congr_mem ?_ (hts.2 l (mem_sortedBids hl))
      intro x hx
      rw [hh0 l hl x hx]
    have hnd : (addrsOfSide (sortedBids ob)).Nodup :=
      ((List.nodup_append.mp hwf.1).2.1).perm (addrs_sortedBids_perm ob).symm
    have hno : ob.heap.length ∉ addrsOfSide (sortedBids ob) := by
      intro hm
      have hl := hwf.2 ob.heap.length (List.mem_append.mpr
        (Or.inr ((addrs_sortedBids_perm ob).subset hm)))
      exact absurd rfl (Nat.ne_of_lt hl).symm
    have hsortp : List.Pairwise (fun l1 l2 : Limit =>
        cond false (l1.price < l2.price) (l2.price < l1.price))
        (sortedBids ob) := by
      have h1 : List.Pairwise bidGe (sortedBids ob) :=
        List.sorted_insertionSort bidGe ob.bids
      have h2 : ((sortedBids ob).map Limit.price).Nodup :=
        hpn.2.perm ((List.perm_insertionSort bidGe ob.bids).map
          Limit.price).symm
      have h3 : List.Pairwise (fun l1 l2 : Limit => l1.price ≠ l2.price)
          (sortedBids ob) := List.pairwise_map.mp h2
      refine (h1.and h3).imp ?_
      intro l1 l2 h
      exact lt_of_le_of_ne h.1 h.2.symm
    have hpair := marketPass_pairwise ob.heap.length false hfb hts' hnd hno
      hsortp
    have htr : ∀ x, (hget ob'.heap x).timestamp
        = (hget (ob.heap ++ [o]) x).timestamp := by
      intro x
      rw [hheap]
      exact (marketPass_core ob.heap.length (ob.heap ++ [o])
        (sortedBids ob) x).2.2.2
    have hpair' : List.Pairwise (priceTimeLe false ob'.heap) ms := by
      rw [hms]
      exact hpair.imp (priceTimeLe_congr false htr)
    exact hpair'.chain'

theorem s2Book_eval : s2Book
    = ⟨[⟨3, 0, 1, true, some 5000, 1⟩, ⟨4, 0, 1, true, some 5000, 2⟩,
        ⟨2, 0, 8, true, some 9000, 3⟩, ⟨1, 0, 5, true, some 10000, 4⟩],
       [],
       [⟨5000, [0, 1], 2⟩, ⟨9000, [2], 8⟩, ⟨10000, [3], 5⟩],
       [],
       [(1, 3), (2, 2), (4, 1), (3, 0)]⟩ := by
  norm_num [s2Book, placeLimitOrder, addToSide, NewOrderbook, NewLimit,
    Limit.addOrder, mapInsert, hget, hset]

theorem s2_sortedBids : sortedBids
    (⟨[⟨3, 0, 1, true, some 5000, 1⟩, ⟨4, 0, 1, true, some 5000, 2⟩,
        ⟨2, 0, 8, true, some 9000, 3⟩, ⟨1, 0, 5, true, some 10000, 4⟩],
       [],
       [⟨5000, [0, 1], 2⟩, ⟨9000, [2], 8⟩, ⟨10000, [3], 5⟩],
       [],
       [(1, 3), (2, 2), (4, 1), (3, 0)]⟩ : Orderbook)
    = [⟨10000, [3], 5⟩, ⟨9000, [2], 8⟩, ⟨5000, [0, 1], 2⟩] := by
  norm_num [sortedBids, List.insertionSort, List.orderedInsert, bidGe]

theorem s2_fill1 : Limit.fill ⟨10000, [3], 5⟩
    [⟨3, 0, 1, true, some 5000, 1⟩, ⟨4, 0, 1, true, some 5000, 2⟩,
     ⟨2, 0, 8, true, some 9000, 3⟩, ⟨1, 0, 5, true, some 10000, 4⟩,
     ⟨9, 7, 10, false, none, 5⟩] 4
    = (⟨10000, [], 0⟩,
       [⟨3, 0, 1, true, some 5000, 1⟩, ⟨4, 0, 1, true, some 5000, 2⟩,
        ⟨2, 0, 8, true, some 9000, 3⟩, ⟨1, 0, 0, true, none, 4⟩,
        ⟨9, 7, 5, false, none, 5⟩],
       [⟨4, 3, 5, 10000⟩]) := by
  norm_num [Limit.fill, fillPass, fillOrder, fillSizes, Limit.deleteOrder,
    deleteScan_singleton, List.insertionSort, List.orderedInsert, tsLe,
    hget, hset]

theorem s2_fill2 : Limit.fill ⟨9000, [2], 8⟩
    [⟨3, 0, 1, true, some 5000, 1⟩, ⟨4, 0, 1, true, some 5000, 2⟩,
     ⟨2, 0, 8, true, some 9000, 3⟩, ⟨1, 0, 0, true, none, 4⟩,
     ⟨9, 7, 5, false, none, 5⟩] 4
    = (⟨9000, [2], 3⟩,
       [⟨3, 0, 1, true, some 5000, 1⟩, ⟨4, 0, 1, true, some 5000, 2⟩,
        ⟨2, 0, 3, true, some 9000, 3⟩, ⟨1, 0, 0, true, none, 4⟩,
        ⟨9, 7, 0, false, none, 5⟩],
       [⟨4, 2, 5, 9000⟩]) := by
  norm_num [Limit.fill, fillPass, fillOrder, fillSizes, Limit.deleteOrder,
    deleteScan_singleton, List.insertionSort, List.orderedInsert, tsLe,
    hget, hset]

theorem s2_fill3 : Limit.fill ⟨5000, [0, 1], 2⟩
    [⟨3, 0, 1, true, some 5000, 1⟩, ⟨4, 0, 1, true, some 5000, 2⟩,
     ⟨2, 0, 3, true, some 9000, 3⟩, ⟨1, 0, 0, true, none, 4⟩,
     ⟨9, 7, 0, false, none, 5⟩] 4
    = (⟨5000, [0, 1], 2⟩,
       [⟨3, 0, 1, true, some 5000, 1⟩, ⟨4, 0, 1, true, some 5000, 2⟩,
        ⟨2, 0, 3, true, some 9000, 3⟩, ⟨1, 0, 0, true, none, 4⟩,
        ⟨9, 7, 0, false, none, 5⟩],
       []) := by
  norm_num [Limit.fill, fillPass, fillOrder, fillSizes, Limit.deleteOrder,
    deleteScan_singleton, List.insertionSort, List.orderedInsert, tsLe,
    hget, hset]

theorem s2_marketPass : marketPass 4
    [⟨3, 0, 1, true, some 5000, 1⟩, ⟨4, 0, 1, true, some 5000, 2⟩,
     ⟨2, 0, 8, true, some 9000, 3⟩, ⟨1, 0, 5, true, some 10000, 4⟩,
     ⟨9, 7, 10, false, none, 5⟩]
    [⟨10000, [3], 5⟩, ⟨9000, [2], 8⟩, ⟨5000, [0, 1], 2⟩]
    = ([⟨3, 0, 1, true, some 5000, 1⟩, ⟨4, 0, 1, true, some 5000, 2⟩,
        ⟨2, 0, 3, true, some 9000, 3⟩, ⟨1, 0, 0, true, none, 4⟩,
        ⟨9, 7, 0, false, none, 5⟩],
       [⟨9000, [2], 3⟩, ⟨5000, [0, 1], 2⟩],
       [⟨4, 3, 5, 10000⟩, ⟨4, 2, 5, 9000⟩]) := by
  simp only [marketPass, s2_fill1, s2_fill2, s2_fill3]
  norm_num

theorem s2_hpm : placeMarketOrder s2Taker 9 s2Book
    = (.ok [⟨4, 3, 5, 10000⟩, ⟨4, 2, 5, 9000⟩],
       ⟨[⟨3, 0, 1, true, some 5000, 1⟩, ⟨4, 0, 1, true, some 5000, 2⟩,
         ⟨2, 0, 3, true, some 9000, 3⟩, ⟨1, 0, 0, true, none, 4⟩,
         ⟨9, 7, 0, false, none, 5⟩],
        [],
        [⟨9000, [2], 3⟩, ⟨5000, [0, 1], 2⟩],
        [⟨10000, 5, false, 9⟩, ⟨9000, 5, false, 9⟩],
        [(1, 3), (2, 2), (4, 1), (3, 0)]⟩) := by
  rw [s2Book_eval]
  unfold placeMarketOrder
  simp only [s2_sortedBids]
  norm_num [s2Taker, bidTotalVolume]
  simp only [s2_marketPass]
  norm_num
  intro h
  simp at h

/-- Witness for C2 at scenario S2: the market ask of size 10 consumes A
fully at 10000, then B partially at 9000, in that order. -/
theorem C2_price_time_priority_witness :
    addrsWF s2Book ∧ timeSorted s2Book ∧ pricesNodup s2Book ∧
    sidesOK s2Book ∧
    List.Chain' (priceTimeLe s2Taker.bid s2Ob.heap) s2Ms := by
  have h1 : addrsWF s2Book := by
    rw [addrsWF, allAddrs, s2Book_eval]
    decide
  have h2 : timeSorted s2Book := by
    rw [timeSorted, s2Book_eval]
    constructor
    · decide
    · decide
  have h3 : pricesNodup s2Book := by
    rw [pricesNodup, s2Book_eval]
    constructor
    · decide
    · decide
  have h4 : sidesOK s2Book := by
    rw [sidesOK, s2Book_eval]
    constructor
    · decide
    · decide
  have hok : placeMarketOrder s2Taker 9 s2Book = (.ok s2Ms, s2Ob) := by
    show _ = (Except.ok (((placeMarketOrder s2Taker 9 s2Book).1).toOption.getD []),
      (placeMarketOrder s2Taker 9 s2Book).2)
    rw [s2_hpm]
    rfl
  exact ⟨h1, h2, h3, h4,
    C2_price_time_priority s2Taker 9 s2Book s2Ms s2Ob h1 h2 h3 h4 hok⟩

/-! ### Claim C4: `PlaceLimitOrder` (validation and postconditions) -/

theorem mapLookup_insert (k : Int) (a : Addr) (m : List (Int × Addr)) :
    mapLookup k (mapInsert k a m) = some a := by
  simp [mapLookup, mapInsert]

theorem addToSide_heap (ls : List Limit) (h : Heap) (a : Addr) (price : ℚ) :
    (addToSide ls h a price).2
      = hset h a { hget h a with limitRef := some price } := by
  induction ls with
  | nil => rfl
  | cons l rest ih =>
    by_cases hp : l.price = price
    · simp only [addToSide, hp, eq_self_iff_true, if_true, Limit.addOrder]
    · simp only [addToSide, if_neg hp]
      exact ih

theorem addToSide_mem (ls : List Limit) (h : Heap) (a : Addr) (price : ℚ) :
    ∃ l ∈ (addToSide ls h a price).1, l.price = price ∧ a ∈ l.orders := by
  induction ls with
  | nil => simp [addToSide, Limit.addOrder, NewLimit]
  | cons l rest ih =>
    by_cases hp : l.price = price
    · simp only [addToSide, if_pos hp]
      exact ⟨(l.addOrder h a).1, List.mem_cons_self _ _,
        by simp [Limit.addOrder, hp], by simp [Limit.addOrder]⟩
    · simp only [addToSide, if_neg hp]
      obtain ⟨l', hl', hp', ha'⟩ := ih
      exact ⟨l', List.mem_cons_of_mem _ hl', hp', ha'⟩

/-- Counterexample to claim C4 as stated: `PlaceLimitOrder` performs no
validation and has no failure path at all (no INVALID_ORDER outcome exists in
the source).  A size-0 ask is accepted and rests in the book, and a second
order reusing the same id is also accepted: the index entry is overwritten
while the first order remains resting. -/
theorem C4_counterexample :
    (placeLimitOrder 100 ⟨1, 0, 0, false, none, 1⟩ NewOrderbook).1
      = ⟨[⟨1, 0, 0, false, some 100, 1⟩], [⟨100, [0], 0⟩], [], [], [(1, 0)]⟩ ∧
    (placeLimitOrder 200 ⟨1, 5, 7, false, none, 2⟩
        (⟨[⟨1, 0, 0, false, some 100, 1⟩], [⟨100, [0], 0⟩], [], [],
          [(1, 0)]⟩ : Orderbook)).1
      = ⟨[⟨1, 0, 0, false, some 100, 1⟩, ⟨1, 5, 7, false, some 200, 2⟩],
         [⟨100, [0], 0⟩, ⟨200, [1], 7⟩], [], [], [(1, 1)]⟩ := by
  constructor <;>
    norm_num [placeLimitOrder, addToSide, NewOrderbook, NewLimit,
      Limit.addOrder, mapInsert, hget, hset]

/-- Claim C4, corrected: `PlaceLimitOrder` performs no validation and cannot
fail — a size-0 or duplicate-id order is accepted rather than rejected with
INVALID_ORDER (see the counterexample).  The success postconditions do hold,
unconditionally: after the call the order index maps the order's id to the
placed order, the placed order's level reference is the given price, and a
level at that price on the order's own side contains the order. -/
theorem C4_place_limit_postconditions (price : ℚ) (o : Order)
    (ob : Orderbook) :
    mapLookup o.id (placeLimitOrder price o ob).1.ordersById
      = some (placeLimitOrder price o ob).2 ∧
    hget (placeLimitOrder price o ob).1.heap (placeLimitOrder price o ob).2
      = { o with limitRef := some price } ∧
    ∃ l ∈ (if o.bid then (placeLimitOrder price o ob).1.bids
           else (placeLimitOrder price o ob).1.asks),
      l.price = price ∧ (placeLimitOrder price o ob).2 ∈ l.orders := by
  have ha : ob.heap.length < (ob.heap ++ [o]).length := by simp
  cases hb : o.bid with
  | true =>
    have hred : placeLimitOrder price o ob
        = ({ ob with
              heap :=
                (addToSide ob.bids (ob.heap ++ [o]) ob.heap.length price).2,
              bids :=
                (addToSide ob.bids (ob.heap ++ [o]) ob.heap.length price).1,
              ordersById := mapInsert o.id ob.heap.length ob.ordersById },
           ob.heap.length) := by
      simp only [placeLimitOrder]
      rw [hb, if_pos rfl]
    rw [hred, if_pos rfl]
    refine ⟨mapLookup_insert o.id ob.heap.length ob.ordersById, ?_, ?_⟩
    · show hget (addToSide ob.bids (ob.heap ++ [o]) ob.heap.length price).2
          ob.heap.length = _
      rw [addToSide_heap, hget_hset_self ha, hget_append_self]
      simp [hb]
    · exact addToSide_mem ob.bids (ob.heap ++ [o]) ob.heap.length price
  | false =>
    have hred : placeLimitOrder price o ob
        = ({ ob with
              heap :=
                (addToSide ob.asks (ob.heap ++ [o]) ob.heap.length price).2,
              asks :=
                (addToSide ob.asks (ob.heap ++ [o]) ob.heap.length price).1,
              ordersById := mapInsert o.id ob.heap.length ob.ordersById },
           ob.heap.length) := by
      simp only [placeLimitOrder]
      rw [hb, if_neg Bool.false_ne_true]
    rw [hred, if_neg Bool.false_ne_true]
    refine ⟨mapLookup_insert o.id ob.heap.length ob.ordersById, ?_, ?_⟩
    · show hget (addToSide ob.asks (ob.heap ++ [o]) ob.heap.length price).2
          ob.heap.length = _
      rw [addToSide_heap, hget_hset_self ha, hget_append_self]
      simp [hb]
    · exact addToSide_mem ob.asks (ob.heap ++ [o]) ob.heap.length price

/-! ### Claim C7: `CancelOrder` on a non-resting order -/

theorem cancelInSide_heap : ∀ (ls : List Limit) (h : Heap) (a : Addr)
    (price : ℚ) (pr : List Limit × Heap),
    cancelInSide ls h a price = some pr →
    pr.2 = hset h a { hget h a with limitRef := none } := by
  intro ls
  induction ls with
  | nil =>
    intro h a price pr hpr
    simp [cancelInSide] at hpr
  | cons l rest ih =>
    intro h a price pr hpr
    by_cases hp : l.price = price
    · simp only [cancelInSide, if_pos hp, Option.some.injEq] at hpr
      rw [← hpr]
      exact deleteOrder_heap l h a
    · simp only [cancelInSide, if_neg hp] at hpr
      cases hcs : cancelInSide rest h a price with
      | none => rw [hcs] at hpr; simp at hpr
      | some p =>
        rw [hcs] at hpr
        simp only [Option.some.injEq] at hpr
        rw [← hpr]
        exact ih h a price p hcs

theorem cancelOrder_ok_destruct {a : Addr} {ob ob' : Orderbook}
    (hok : cancelOrder a ob = (.ok (), ob')) :
    ∃ p, (hget ob.heap a).limitRef = some p ∧ a < ob.heap.length ∧
      ob'.heap = hset ob.heap a { hget ob.heap a with limitRef := none } ∧
      ob'.trades = ob.trades ∧
      ob'.ordersById = mapDelete (hget ob.heap a).id ob.ordersById ∧
      (((hget ob.heap a).bid = true ∧ ob'.asks = ob.asks ∧
        ∃ pr, cancelInSide ob.bids ob.heap a p = some pr ∧
          ob'.bids = pr.1 ∧ ob'.heap = pr.2) ∨
       ((hget ob.heap a).bid = false ∧ ob'.bids = ob.bids ∧
        ∃ pr, cancelInSide ob.asks ob.heap a p = some pr ∧
          ob'.asks = pr.1 ∧ ob'.heap = pr.2)) := by
  simp only [cancelOrder] at hok
  split at hok
  · simp at hok
  · rename_i p href
    have halt : a < ob.heap.length := by
      by_contra hge
      rw [hget_default (Nat.le_of_not_lt hge)] at href
      simp [defaultOrder] at href
    split at hok
    · rename_i hbid
      split at hok
      · simp at hok
      · rename_i pr hcs
        rw [Prod.mk.injEq] at hok
        obtain ⟨-, hob⟩ := hok
        have h2 := cancelInSide_heap ob.bids ob.heap a p pr hcs
        refine ⟨p, href, halt, ?_, ?_, ?_, Or.inl ⟨hbid, ?_, pr, hcs, ?_, ?_⟩⟩
        · rw [← hob]; exact h2
        · rw [← hob]
        · rw [← hob]
        · rw [← hob]
        · rw [← hob]
        · rw [← hob]
    · rename_i hbid
      rw [Bool.not_eq_true] at hbid
      split at hok
      · simp at hok
      · rename_i pr hcs
        rw [Prod.mk.injEq] at hok
        obtain ⟨-, hob⟩ := hok
        have h2 := cancelInSide_heap ob.asks ob.heap a p pr hcs
        refine ⟨p, href, halt, ?_, ?_, ?_, Or.inr ⟨hbid, ?_, pr, hcs, ?_, ?_⟩⟩
        · rw [← hob]; exact h2
        · rw [← hob]
        · rw [← hob]
        · rw [← hob]
        · rw [← hob]
        · rw [← hob]

/-- Claim C7: cancelling an order that is not resting (its level reference is
nil) fails with UNKNOWN_ORDER — in the source this is the nil-`*Limit`
dereference panic, raised before any mutation, modelled as the `unknownOrder`
error with the book unchanged.  Consequently a successful cancel followed by
a second cancel of the same order fails with UNKNOWN_ORDER and the second
call leaves the book unchanged. -/
theorem C7_cancel_unknown (a : Addr) (ob ob' : Orderbook) :
    ((hget ob.heap a).limitRef = none →
      cancelOrder a ob = (.error .unknownOrder, ob)) ∧
    (cancelOrder a ob = (.ok (), ob') →
      cancelOrder a ob' = (.error .unknownOrder, ob')) := by
  have herr : ∀ (b : Orderbook), (hget b.heap a).limitRef = none →
      cancelOrder a b = (.error .unknownOrder, b) := by
    intro b hx
    simp only [cancelOrder, hx]
  refine ⟨herr ob, ?_⟩
  intro hok
  obtain ⟨p, href, halt, hheap, -, -, -⟩ := cancelOrder_ok_destruct hok
  refine herr ob' ?_
  rw [hheap, hget_hset_self halt]

theorem wBookC_eval : wBookC
    = ⟨[⟨5, 0, 4, true, some 10000, 1⟩], [], [⟨10000, [0], 4⟩], [],
       [(5, 0)]⟩ := by
  norm_num [wBookC, wBid4, placeLimitOrder, addToSide, NewOrderbook, NewLimit,
    Limit.addOrder, mapInsert, hget, hset]

theorem wCancel_eval : cancelOrder 0 wBookC
    = (.ok (), ⟨[⟨5, 0, 4, true, none, 1⟩], [], [], [], []⟩) := by
  rw [wBookC_eval]
  norm_num [cancelOrder, cancelInSide, Limit.deleteOrder, deleteScan_singleton,
    List.insertionSort, mapDelete, hget, hset]

/-- Witness for C7: place a bid, cancel it (successfully), cancel it again —
the second cancel fails with UNKNOWN_ORDER and leaves the book unchanged;
an address that was never placed also fails with UNKNOWN_ORDER. -/
theorem C7_cancel_unknown_witness :
    cancelOrder 0 wBookC
      = (.ok (), ⟨[⟨5, 0, 4, true, none, 1⟩], [], [], [], []⟩) ∧
    cancelOrder 0 (⟨[⟨5, 0, 4, true, none, 1⟩], [], [], [], []⟩ : Orderbook)
      = (.error .unknownOrder,
         ⟨[⟨5, 0, 4, true, none, 1⟩], [], [], [], []⟩) ∧
    cancelOrder 1 wBookC = (.error .unknownOrder, wBookC) := by
  have hok := wCancel_eval
  refine ⟨hok, (C7_cancel_unknown 0 wBookC _).2 hok, ?_⟩
  refine (C7_cancel_unknown 1 wBookC wBookC).1 ?_
  rw [wBookC_eval]
  rfl

/-! ### Claim C9: the market maker seeds an empty book -/

/-- Claim C9 (transport modelled from the spec, see `seedMarket`): when both
best-of prices report the 0 sentinel, one tick of the maker loop runs
`seedMarket`, which posts a limit bid at the oracle price 1000 minus
`seedOffset` and a limit ask at 1000 plus `seedOffset`, each of size
`orderSize`; with `seedOffset` 40 and `orderSize` 10 this yields a bid level
at 960 and an ask level at 1040, each of size 10. -/
theorem C9_maker_seeds (cfg : MMConfig) (ob : Orderbook)
    (id1 ts1 id2 ts2 : Int)
    (hbb : bestBidPrice ob = 0) (hba : bestAskPrice ob = 0) :
    makerTick cfg ob id1 ts1 id2 ts2 = seedMarket cfg ob id1 ts1 id2 ts2 ∧
    (seedMarket cfg NewOrderbook id1 ts1 id2 ts2).bids
      = [⟨1000 - cfg.seedOffset, [0], cfg.orderSize⟩] ∧
    (seedMarket cfg NewOrderbook id1 ts1 id2 ts2).asks
      = [⟨1000 + cfg.seedOffset, [1], cfg.orderSize⟩] ∧
    (seedMarket cfg NewOrderbook id1 ts1 id2 ts2).heap
      = [⟨id1, cfg.userId, cfg.orderSize, true,
          some (1000 - cfg.seedOffset), ts1⟩,
         ⟨id2, cfg.userId, cfg.orderSize, false,
          some (1000 + cfg.seedOffset), ts2⟩] ∧
    (makerTick ⟨8, 10, 20, 40, 10⟩ NewOrderbook 1 11 2 12).bids
      = [⟨960, [0], 10⟩] ∧
    (makerTick ⟨8, 10, 20, 40, 10⟩ NewOrderbook 1 11 2 12).asks
      = [⟨1040, [1], 10⟩] := by
  have hseed : ∀ (c : MMConfig) (i1 t1 i2 t2 : Int),
      (seedMarket c NewOrderbook i1 t1 i2 t2).bids
          = [⟨1000 - c.seedOffset, [0], c.orderSize⟩] ∧
      (seedMarket c NewOrderbook i1 t1 i2 t2).asks
          = [⟨1000 + c.seedOffset, [1], c.orderSize⟩] ∧
      (seedMarket c NewOrderbook i1 t1 i2 t2).heap
          = [⟨i1, c.userId, c.orderSize, true,
              some (1000 - c.seedOffset), t1⟩,
             ⟨i2, c.userId, c.orderSize, false,
              some (1000 + c.seedOffset), t2⟩] := by
    intro c i1 t1 i2 t2
    refine ⟨?_, ?_, ?_⟩ <;>
      simp [seedMarket, placeLimitOrder, addToSide, NewOrderbook, NewLimit,
        Limit.addOrder, mkOrder, mapInsert, hget, hset,
        simulateFetchCurrentETHPrice]
  have htick : makerTick cfg ob id1 ts1 id2 ts2
      = seedMarket cfg ob id1 ts1 id2 ts2 := by
    simp [makerTick, hbb, hba]
  have htick0 : makerTick ⟨8, 10, 20, 40, 10⟩ NewOrderbook 1 11 2 12
      = seedMarket ⟨8, 10, 20, 40, 10⟩ NewOrderbook 1 11 2 12 := by
    simp [makerTick, bestBidPrice, bestAskPrice, sortedAsks, sortedBids,
      NewOrderbook, List.insertionSort]
  obtain ⟨hb1, ha1, hh1⟩ := hseed cfg id1 ts1 id2 ts2
  obtain ⟨hb2, ha2, -⟩ := hseed ⟨8, 10, 20, 40, 10⟩ 1 11 2 12
  refine ⟨htick, hb1, ha1, hh1, ?_, ?_⟩
  · rw [htick0, hb2]
    norm_num
  · rw [htick0, ha2]
    norm_num

/-- Witness for C9 on the fresh empty book with the scenario S6 parameters. -/
theorem C9_maker_seeds_witness :
    bestBidPrice NewOrderbook = 0 ∧ bestAskPrice NewOrderbook = 0 ∧
    makerTick ⟨8, 10, 20, 40, 10⟩ NewOrderbook 1 11 2 12
      = seedMarket ⟨8, 10, 20, 40, 10⟩ NewOrderbook 1 11 2 12 ∧
    (makerTick ⟨8, 10, 20, 40, 10⟩ NewOrderbook 1 11 2 12).bids
      = [⟨960, [0], 10⟩] := by
  have h := C9_maker_seeds ⟨8, 10, 20, 40, 10⟩ NewOrderbook 1 11 2 12 rfl rfl
  exact ⟨rfl, rfl, h.1, h.2.2.2.2.1⟩

/-! ### Claim C5: the order index after a fill -/

theorem wBook10_eval : wBook10
    = ⟨[⟨6, 0, 10, false, some 10000, 1⟩], [⟨10000, [0], 10⟩], [], [],
       [(6, 0)]⟩ := by
  norm_num [wBook10, wAsk10, placeLimitOrder, addToSide, NewOrderbook,
    NewLimit, Limit.addOrder, mapInsert, hget, hset]

theorem c5_sortedAsks : sortedAsks
    (⟨[⟨6, 0, 10, false, some 10000, 1⟩], [⟨10000, [0], 10⟩], [], [],
      [(6, 0)]⟩ : Orderbook)
    = [⟨10000, [0], 10⟩] := by
  norm_num [sortedAsks, List.insertionSort, List.orderedInsert]

theorem c5_fill : Limit.fill ⟨10000, [0], 10⟩
    [⟨6, 0, 10, false, some 10000, 1⟩, ⟨7, 7, 10, true, none, 2⟩] 1
    = (⟨10000, [], 0⟩,
       [⟨6, 0, 0, false, none, 1⟩, ⟨7, 7, 0, true, none, 2⟩],
       [⟨0, 1, 10, 10000⟩]) := by
  norm_num [Limit.fill, fillPass, fillOrder, fillSizes, Limit.deleteOrder,
    deleteScan_singleton, List.insertionSort, List.orderedInsert, tsLe,
    hget, hset]

theorem c5_marketPass : marketPass 1
    [⟨6, 0, 10, false, some 10000, 1⟩, ⟨7, 7, 10, true, none, 2⟩]
    [⟨10000, [0], 10⟩]
    = ([⟨6, 0, 0, false, none, 1⟩, ⟨7, 7, 0, true, none, 2⟩],
       [], [⟨0, 1, 10, 10000⟩]) := by
  simp only [marketPass, c5_fill]
  norm_num

theorem c5_hpm : placeMarketOrder ⟨7, 7, 10, true, none, 2⟩ 3 wBook10
    = (.ok [⟨0, 1, 10, 10000⟩],
       ⟨[⟨6, 0, 0, false, none, 1⟩, ⟨7, 7, 0, true, none, 2⟩],
        [], [], [⟨10000, 10, true, 3⟩], [(6, 0)]⟩) := by
  rw [wBook10_eval]
  unfold placeMarketOrder
  simp only [c5_sortedAsks]
  norm_num [askTotalVolume]
  simp only [c5_marketPass]
  norm_num

/-- Claim C5 fails against the code: `PlaceMarketOrder` never deletes a
consumed order from the `Orders` map.  Concretely, a resting ask (id 6) of
size 10 is fully consumed by a size-10 market bid — the call succeeds, the
order is removed from its (evicted) level and no order rests anywhere in the
book — yet `orders_by_id` still maps id 6 to the consumed order, whose size
is 0 and whose level reference is nil, violating index consistency. -/
theorem C5_consumed_order_not_deleted :
    placeMarketOrder ⟨7, 7, 10, true, none, 2⟩ 3 wBook10
      = (.ok [⟨0, 1, 10, 10000⟩],
         ⟨[⟨6, 0, 0, false, none, 1⟩, ⟨7, 7, 0, true, none, 2⟩],
          [], [], [⟨10000, 10, true, 3⟩], [(6, 0)]⟩) ∧
    mapLookup 6
      (placeMarketOrder ⟨7, 7, 10, true, none, 2⟩ 3 wBook10).2.ordersById
      = some 0 ∧
    (hget (placeMarketOrder ⟨7, 7, 10, true, none, 2⟩ 3 wBook10).2.heap
      0).size = 0 ∧
    (hget (placeMarketOrder ⟨7, 7, 10, true, none, 2⟩ 3 wBook10).2.heap
      0).limitRef = none ∧
    allAddrs (placeMarketOrder ⟨7, 7, 10, true, none, 2⟩ 3 wBook10).2 = [] := by
  refine ⟨c5_hpm, ?_, ?_, ?_, ?_⟩ <;> rw [c5_hpm] <;> rfl

/-! ### Claim C6: volume consistency is preserved by every operation -/

theorem nodup_orders_of_side {ls : List Limit}
    (hnd : (addrsOfSide ls).Nodup) : ∀ l ∈ ls, l.orders.Nodup := by
  induction ls with
  | nil => intro l hl; simp at hl
  | cons l0 rest ih =>
    rw [addrsOfSide, List.flatMap_cons, List.nodup_append] at hnd
    intro l hl
    rcases List.mem_cons.mp hl with rfl | hl
    · exact hnd.1
    · exact ih (by simpa [addrsOfSide] using hnd.2.1) l hl

theorem deleteOrder_volOK {l : Limit} {h : Heap} {a : Addr}
    (hnd : l.orders.Nodup) (hmem : a ∈ l.orders) (hvol : l.volOK h) :
    (l.deleteOrder h a).1.volOK (l.deleteOrder h a).2 := by
  have hperm := deleteOrder_orders_perm h hnd hmem
  have hpc : l.orders.Perm (a :: l.orders.erase a) := List.perm_cons_erase hmem
  unfold Limit.volOK
  rw [deleteOrder_tv]
  have hsz : ((l.deleteOrder h a).1.orders.map
        (fun x => (hget (l.deleteOrder h a).2 x).size)).sum
      = ((l.deleteOrder h a).1.orders.map (fun x => (hget h x).size)).sum := by
    refine congrArg List.sum (List.map_congr_left ?_)
    intro x _
    exact deleteOrder_size l h a x
  have hsum : ((l.deleteOrder h a).1.orders.map
        (fun x => (hget h x).size)).sum
      = (l.orders.map (fun x => (hget h x).size)).sum - (hget h a).size := by
    have h1 := (hperm.map (fun x => (hget h x).size)).sum_eq
    have h2 := (hpc.map (fun x => (hget h x).size)).sum_eq
    simp only [List.map_cons, List.sum_cons] at h2
    rw [h1, h2]
    ring
  rw [hsz, hsum, hvol]

theorem addToSide_volOK : ∀ (ls : List Limit) (h : Heap) (a : Addr)
    (price : ℚ), (∀ l ∈ ls, l.volOK h) →
    ∀ l' ∈ (addToSide ls h a price).1,
      l'.volOK (addToSide ls h a price).2 := by
  intro ls
  induction ls with
  | nil =>
    intro h a price _ l' hl'
    simp only [addToSide, List.mem_singleton] at hl'
    subst hl'
    simp [addToSide, Limit.addOrder, NewLimit, Limit.volOK]
  | cons l rest ih =>
    intro h a price hv l' hl'
    by_cases hp : l.price = price
    · simp only [addToSide, if_pos hp] at hl' ⊢
      have hszl : ∀ x,
          (hget (hset h a { hget h a with limitRef := some l.price }) x).size
            = (hget h x).size :=
        fun x => @hget_hset_size h a
          { hget h a with limitRef := some l.price } rfl x
      rcases List.mem_cons.mp hl' with rfl | hl'
      · unfold Limit.volOK
        simp only [Limit.addOrder, List.map_append, List.sum_append,
          List.map_cons, List.map_nil, List.sum_cons, List.sum_nil]
        have hrw : ∀ xs : List Addr,
            (xs.map (fun x => (hget (hset h a
                { hget h a with limitRef := some l.price }) x).size)).sum
              = (xs.map (fun x => (hget h x).size)).sum :=
          fun xs => congrArg List.sum (List.map_congr_left fun x _ => hszl x)
        rw [hrw l.orders, hszl a, hv l (List.mem_cons_self l rest)]
        ring
      · exact volOK_congr (fun x _ => hszl x)
          (hv l' (List.mem_cons_of_mem l hl'))
    · simp only [addToSide, if_neg hp] at hl' ⊢
      rcases List.mem_cons.mp hl' with rfl | hl'
      · rw [addToSide_heap]
        exact volOK_congr (fun x _ =>
            @hget_hset_size h a
              { hget h a with limitRef := some price } rfl x)
          (hv l' (List.mem_cons_self l' rest))
      · exact ih h a price (fun l2 h2 => hv l2 (List.mem_cons_of_mem l h2))
          l' hl'

theorem cancelInSide_volOK : ∀ (ls : List Limit) (h : Heap) (a : Addr)
    (p : ℚ) (pr : List Limit × Heap),
    cancelInSide ls h a p = some pr →
    (ls.map Limit.price).Nodup →
    (∀ l ∈ ls, l.orders.Nodup) →
    (∃ l ∈ ls, l.price = p ∧ a ∈ l.orders) →
    (∀ l ∈ ls, l.volOK h) →
    ∀ l' ∈ pr.1, l'.volOK pr.2 := by
  intro ls
  induction ls with
  | nil =>
    intro h a p pr hpr
    simp [cancelInSide] at hpr
  | cons l rest ih =>
    intro h a p pr hpr hprices hnds hex hv
    by_cases hp : l.price = p
    · simp only [cancelInSide, if_pos hp, Option.some.injEq] at hpr
      have hain : a ∈ l.orders := by
        obtain ⟨l0, hl0, hl0p, hl0a⟩ := hex
        rcases List.mem_cons.mp hl0 with rfl | hl0
        · exact hl0a
        · exfalso
          have hm : l.price ∈ rest.map Limit.price := by
            rw [hp, ← hl0p]
            exact List.mem_map_of_mem Limit.price hl0
          exact (List.nodup_cons.mp hprices).1 hm
      have hdel := deleteOrder_volOK (hnds l (List.mem_cons_self l rest))
        hain (hv l (List.mem_cons_self l rest))
      have hrest : ∀ l0 ∈ rest, l0.volOK (l.deleteOrder h a).2 := by
        intro l0 hl0
        exact volOK_congr (fun x _ => deleteOrder_size l h a x)
          (hv l0 (List.mem_cons_of_mem l hl0))
      rw [← hpr]
      intro l' hl'
      by_cases hie : (l.deleteOrder h a).1.orders.isEmpty = true
      · rw [if_pos hie] at hl'
        exact hrest l' hl'
      · rw [if_neg hie] at hl'
        rcases List.mem_cons.mp hl' with rfl | hl2
        · exact hdel
        · exact hrest l' hl2
    · simp only [cancelInSide, if_neg hp] at hpr
      cases hcs : cancelInSide rest h a p with
      | none => rw [hcs] at hpr; simp at hpr
      | some q =>
        rw [hcs] at hpr
        simp only [Option.some.injEq] at hpr
        rw [← hpr]
        have hszq : ∀ x, (hget q.2 x).size = (hget h x).size := by
          intro x
          rw [cancelInSide_heap rest h a p q hcs]
          exact @hget_hset_size h a { hget h a with limitRef := none } rfl x
        have hex2 : ∃ l0 ∈ rest, l0.price = p ∧ a ∈ l0.orders := by
          obtain ⟨l0, hl0, hl0p, hl0a⟩ := hex
          rcases List.mem_cons.mp hl0 with rfl | hl0
          · exact absurd hl0p hp
          · exact ⟨l0, hl0, hl0p, hl0a⟩
        have hrec := ih h a p q hcs (List.nodup_cons.mp hprices).2
          (fun l0 hl0 => hnds l0 (List.mem_cons_of_mem l hl0)) hex2
          (fun l0 hl0 => hv l0 (List.mem_cons_of_mem l hl0))
        intro l' hl'
        rcases List.mem_cons.mp hl' with rfl | hl2
        · exact volOK_congr (fun x _ => hszq x)
            (hv l' (List.mem_cons_self l' rest))
        · exact hrec l' hl2

/-- Claim C6: volume consistency is preserved by every successful operation.
On a book satisfying the spec's invariants (volume consistency, distinct
resting orders, non-negative sizes, one level per price, valid level
references), any `PlaceLimitOrder`, any successful `PlaceMarketOrder` and
any successful `CancelOrder` produce a book in which every level's
`TotalVolume` equals the sum of the sizes of the orders resting at that
level.  A side's total volume equals the sum of `TotalVolume` over that
side's levels by construction, exactly as the Go accessors compute it
(first two conjuncts). -/
theorem C6_volume_consistency (ob : Orderbook)
    (hvol : volumeOK ob) (hwf : addrsWF ob) (hnn : sizesNonneg ob)
    (hpn : pricesNodup ob) (hrefs : refsOK ob) :
    askTotalVolume ob = (ob.asks.map Limit.totalVolume).sum ∧
    bidTotalVolume ob = (ob.bids.map Limit.totalVolume).sum ∧
    (∀ price o, volumeOK (placeLimitOrder price o ob).1) ∧
    (∀ o now ms ob', placeMarketOrder o now ob = (.ok ms, ob') →
      volumeOK ob') ∧
    (∀ a ob', cancelOrder a ob = (.ok (), ob') → volumeOK ob') := by
  refine ⟨rfl, rfl, ?_, ?_, ?_⟩
  · intro price o
    have hup : ∀ (ls : List Limit),
        (∀ l ∈ ls, l.volOK ob.heap) →
        (∀ l ∈ ls, ∀ x ∈ l.orders, x < ob.heap.length) →
        ∀ l' ∈ (addToSide ls (ob.heap ++ [o]) ob.heap.length price).1,
          l'.volOK (addToSide ls (ob.heap ++ [o]) ob.heap.length price).2 := by
      intro ls hls hbnd
      refine addToSide_volOK ls (ob.heap ++ [o]) ob.heap.length price ?_
      intro l hl
      refine volOK_congr ?_ (hls l hl)
      intro x hx
      rw [hget_append_lt (hbnd l hl x hx) [o]]
    have hkeep : ∀ (ls : List Limit),
        (∀ l ∈ ls, l.volOK ob.heap) →
        (∀ l ∈ ls, ∀ x ∈ l.orders, x < ob.heap.length) →
        ∀ l ∈ ls, l.volOK
          (hset (ob.heap ++ [o]) ob.heap.length
            { hget (ob.heap ++ [o]) ob.heap.length with
                limitRef := some price }) := by
      intro ls hls hbnd l hl
      refine volOK_congr ?_ (hls l hl)
      intro x hx
      rw [@hget_hset_size (ob.heap ++ [o]) ob.heap.length
          { hget (ob.heap ++ [o]) ob.heap.length with
              limitRef := some price } rfl x,
        hget_append_lt (hbnd l hl x hx) [o]]
    cases hb : o.bid with
    | true =>
      have hred : placeLimitOrder price o ob
          = ({ ob with
                heap :=
                  (addToSide ob.bids (ob.heap ++ [o]) ob.heap.length price).2,
                bids :=
                  (addToSide ob.bids (ob.heap ++ [o]) ob.heap.length price).1,
                ordersById := mapInsert o.id ob.heap.length ob.ordersById },
             ob.heap.length) := by
        simp only [placeLimitOrder]
        rw [hb, if_pos rfl]
      rw [hred]
      constructor
      · intro l hl
        rw [addToSide_heap]
        exact hkeep ob.asks hvol.1 (fun l2 hl2 x hx =>
          hwf.2 x (List.mem_append.mpr (Or.inl (mem_addrsOfSide hl2 hx))))
          l hl
      · intro l hl
        exact hup ob.bids hvol.2 (fun l2 hl2 x hx =>
          hwf.2 x (List.mem_append.mpr (Or.inr (mem_addrsOfSide hl2 hx))))
          l hl
    | false =>
      have hred : placeLimitOrder price o ob
          = ({ ob with
                heap :=
                  (addToSide ob.asks (ob.heap ++ [o]) ob.heap.length price).2,
                asks :=
                  (addToSide ob.asks (ob.heap ++ [o]) ob.heap.length price).1,
                ordersById := mapInsert o.id ob.heap.length ob.ordersById },
             ob.heap.length) := by
        simp only [placeLimitOrder]
        rw [hb, if_neg Bool.false_ne_true]
      rw [hred]
      constructor
      · intro l hl
        exact hup ob.asks hvol.1 (fun l2 hl2 x hx =>
          hwf.2 x (List.mem_append.mpr (Or.inl (mem_addrsOfSide hl2 hx))))
          l hl
      · intro l hl
        rw [addToSide_heap]
        exact hkeep ob.bids hvol.2 (fun l2 hl2 x hx =>
          hwf.2 x (List.mem_append.mpr (Or.inr (mem_addrsOfSide hl2 hx))))
          l hl
  · intro o now ms ob' hok
    have ho : ob.heap.length < (ob.heap ++ [o]).length := by simp
    cases hb : o.bid with
    | true =>
      obtain ⟨-, -, hheap, hasks, hbids, -, -⟩ := ok_destruct_bid hb hok
      obtain ⟨hb1, hb2, hb3, hb4, -, -⟩ := askBridge ob o hvol hwf hnn
      have hmp := marketPass_volOK ob.heap.length hb1 ho hb2 hb3 hb4
      constructor
      · intro l hl
        rw [hasks] at hl
        rw [hheap]
        exact hmp.1 l hl
      · intro l hl
        rw [hbids] at hl
        rw [hheap]
        refine volOK_congr ?_ (hvol.2 l hl)
        intro x hx
        have hxlt : x < ob.heap.length :=
          hwf.2 x (List.mem_append.mpr (Or.inr (mem_addrsOfSide hl hx)))
        have hxa : x ∉ addrsOfSide (sortedAsks ob) := by
          intro hm
          have hm2 := (addrs_sortedAsks_perm ob).subset hm
          have hnd := hwf.1
          rw [allAddrs, List.nodup_append] at hnd
          exact hnd.2.2 hm2 (mem_addrsOfSide hl hx)
        rw [marketPass_frame ob.heap.length (ob.heap ++ [o]) hxa
            (Nat.ne_of_lt hxlt), hget_append_lt hxlt [o]]
    | false =>
      obtain ⟨-, -, hheap, hbids, hasks, -, -⟩ := ok_destruct_ask hb hok
      obtain ⟨hb1, hb2, hb3, hb4, -, -⟩ := bidBridge ob o hvol hwf hnn
      have hmp := marketPass_volOK ob.heap.length hb1 ho hb2 hb3 hb4
      constructor
      · intro l hl
        rw [hasks] at hl
        rw [hheap]
        refine volOK_congr ?_ (hvol.1 l hl)
        intro x hx
        have hxlt : x < ob.heap.length :=
          hwf.2 x (List.mem_append.mpr (Or.inl (mem_addrsOfSide hl hx)))
        have hxa : x ∉ addrsOfSide (sortedBids ob) := by
          intro hm
          have hm2 := (addrs_sortedBids_perm ob).subset hm
          have hnd := hwf.1
          rw [allAddrs, List.nodup_append] at hnd
          exact hnd.2.2 (mem_addrsOfSide hl hx) hm2
        rw [marketPass_frame ob.heap.length (ob.heap ++ [o]) hxa
            (Nat.ne_of_lt hxlt), hget_append_lt hxlt [o]]
      · intro l hl
        rw [hbids] at hl
        rw [hheap]
        exact hmp.1 l hl
  · intro a ob' hok
    obtain ⟨p, href, halt, hheap, -, -, hside⟩ := cancelOrder_ok_destruct hok
    have hsz : ∀ x, (hget ob'.heap x).size = (hget ob.heap x).size := by
      intro x
      rw [hheap]
      exact @hget_hset_size ob.heap a
        { hget ob.heap a with limitRef := none } rfl x
    have hnd := hwf.1
    rw [allAddrs, List.nodup_append] at hnd
    rcases hside with ⟨hbid, hasks, pr, hcs, hbids, hprheap⟩ |
        ⟨hbid, hbids, pr, hcs, hasks, hprheap⟩
    · have hex : ∃ l ∈ ob.bids, l.price = p ∧ a ∈ l.orders := by
        have hm := hrefs a halt p (by simp [href])
        rw [hbid] at hm
        rw [if_pos rfl] at hm
        exact hm
      have hcv := cancelInSide_volOK ob.bids ob.heap a p pr hcs hpn.2
        (nodup_orders_of_side hnd.2.1) hex hvol.2
      constructor
      · intro l hl
        rw [hasks] at hl
        exact volOK_congr (fun x _ => hsz x) (hvol.1 l hl)
      · intro l hl
        rw [hbids] at hl
        rw [hprheap]
        exact hcv l hl
    · have hex : ∃ l ∈ ob.asks, l.price = p ∧ a ∈ l.orders := by
        have hm := hrefs a halt p (by simp [href])
        rw [hbid] at hm
        rw [if_neg Bool.false_ne_true] at hm
        exact hm
      have hcv := cancelInSide_volOK ob.asks ob.heap a p pr hcs hpn.1
        (nodup_orders_of_side hnd.1) hex hvol.1
      constructor
      · intro l hl
        rw [hasks] at hl
        rw [hprheap]
        exact hcv l hl
      · intro l hl
        rw [hbids] at hl
        exact volOK_congr (fun x _ => hsz x) (hvol.2 l hl)

/-- Witness for C6: the invariants hold for the one-bid book, and a limit
order placed on it preserves volume consistency. -/
theorem C6_volume_consistency_witness :
    volumeOK wBookC ∧ addrsWF wBookC ∧ sizesNonneg wBookC ∧
    pricesNodup wBookC ∧ refsOK wBookC ∧
    volumeOK (placeLimitOrder 9000 ⟨8, 1, 3, true, none, 2⟩ wBookC).1 := by
  have h1 : volumeOK wBookC := by
    rw [volumeOK, wBookC_eval]
    norm_num [Limit.volOK, hget]
  have h2 : addrsWF wBookC := by
    rw [addrsWF, allAddrs, wBookC_eval]
    decide
  have h3 : sizesNonneg wBookC := by
    rw [sizesNonneg, allAddrs, wBookC_eval]
    norm_num [addrsOfSide, hget]
  have h4 : pricesNodup wBookC := by
    rw [pricesNodup, wBookC_eval]
    constructor
    · decide
    · decide
  have h5 : refsOK wBookC := by
    rw [refsOK, wBookC_eval]
    decide
  exact ⟨h1, h2, h3, h4, h5,
    (C6_volume_consistency wBookC h1 h2 h3 h4 h5).2.2.1 9000
      ⟨8, 1, 3, true, none, 2⟩⟩

end Exch
